import Mathlib

/-!
Verification of the van Emde Boas tree ordered-set (`VanEmdeBoasTree.h`).

The repository ships the class declaration (`src/VanEmdeBoasTree.h`); the
member-function bodies live in `VanEmdeBoasTree.cpp`, which is not part of the
sources, so the recursive algorithms below are modelled from the spec
(`spec.md` §3–§4): a recursive vEB node above `BASE_BITS = 4` bits, a flat bit
array at or below 4 bits, splitting a `k`-bit value into `ceil(k/2)` high bits
and `floor(k/2)` low bits, and the min/max caching discipline in which the
cached min of a node is stored in no child.  The sentinel `kNil` of the source
is rendered as `Option.none`.  Machine shifts translate to division and
remainder by `2 ^ (k / 2)`.
-/

namespace VEB

/-- Number of high bits at a level of `k` bits: `k_hi = ceil (k / 2)` (spec §3). -/
def hiBits (k : Nat) : Nat := (k + 1) / 2

/-- Number of low bits at a level of `k` bits: `k_lo = floor (k / 2)` (spec §3). -/
def loBits (k : Nat) : Nat := k / 2

/-- High half of a value: `high(x) = x >> k_lo` (spec §3). -/
def highPart (k x : Nat) : Nat := x / 2 ^ (k / 2)

/-- Low half of a value: `low(x) = x mod 2 ^ k_lo` (spec §3). -/
def lowPart (k x : Nat) : Nat := x % 2 ^ (k / 2)

/-- Recombination: `combine(h, l) = (h << k_lo) | l` (spec §3). -/
def combine (k h l : Nat) : Nat := h * 2 ^ (k / 2) + l

theorem two_pow_lo_pos (k : Nat) : 0 < 2 ^ (k / 2) := Nat.pos_pow_of_pos _ (by omega)

theorem pow_hi_mul_pow_lo (k : Nat) : 2 ^ ((k + 1) / 2) * 2 ^ (k / 2) = 2 ^ k := by
  rw [← pow_add]
  congr 1
  omega

theorem lowPart_lt (k x : Nat) : lowPart k x < 2 ^ (k / 2) :=
  Nat.mod_lt _ (two_pow_lo_pos k)

theorem highPart_lt (k x : Nat) (hx : x < 2 ^ k) : highPart k x < 2 ^ ((k + 1) / 2) := by
  rw [highPart, Nat.div_lt_iff_lt_mul (two_pow_lo_pos k), pow_hi_mul_pow_lo]
  exact hx

theorem combine_highPart_lowPart (k x : Nat) : combine k (highPart k x) (lowPart k x) = x := by
  rw [combine, highPart, lowPart]
  exact Nat.div_add_mod' x _

theorem highPart_combine (k h l : Nat) (hl : l < 2 ^ (k / 2)) :
    highPart k (combine k h l) = h := by
  rw [highPart, combine, Nat.mul_comm, Nat.mul_add_div (two_pow_lo_pos k),
    Nat.div_eq_of_lt hl, Nat.add_zero]

theorem lowPart_combine (k h l : Nat) (hl : l < 2 ^ (k / 2)) :
    lowPart k (combine k h l) = l := by
  rw [lowPart, combine, Nat.mul_comm, Nat.mul_add_mod, Nat.mod_eq_of_lt hl]

theorem combine_lt (k h l : Nat) (hh : h < 2 ^ ((k + 1) / 2)) (hl : l < 2 ^ (k / 2)) :
    combine k h l < 2 ^ k := by
  rw [combine, ← pow_hi_mul_pow_lo k]
  calc h * 2 ^ (k / 2) + l < h * 2 ^ (k / 2) + 2 ^ (k / 2) := by omega
    _ = (h + 1) * 2 ^ (k / 2) := by ring
    _ ≤ 2 ^ ((k + 1) / 2) * 2 ^ (k / 2) :=
        Nat.mul_le_mul_right _ (by omega)

theorem combine_lt_combine_of_high_lt (k : Nat) {h1 h2 : Nat} (l1 l2 : Nat)
    (hh : h1 < h2) (hl1 : l1 < 2 ^ (k / 2)) :
    combine k h1 l1 < combine k h2 l2 := by
  rw [combine, combine]
  calc h1 * 2 ^ (k / 2) + l1 < (h1 + 1) * 2 ^ (k / 2) := by rw [Nat.succ_mul]; omega
    _ ≤ h2 * 2 ^ (k / 2) := Nat.mul_le_mul_right _ (by omega)
    _ ≤ h2 * 2 ^ (k / 2) + l2 := Nat.le_add_right _ _

theorem combine_lt_combine_iff (k : Nat) {h1 l1 h2 l2 : Nat}
    (hl1 : l1 < 2 ^ (k / 2)) (hl2 : l2 < 2 ^ (k / 2)) :
    combine k h1 l1 < combine k h2 l2 ↔ h1 < h2 ∨ (h1 = h2 ∧ l1 < l2) := by
  constructor
  · intro hlt
    rcases Nat.lt_trichotomy h1 h2 with hc | hc | hc
    · exact Or.inl hc
    · subst hc
      refine Or.inr ⟨rfl, ?_⟩
      rw [combine, combine] at hlt
      omega
    · exact absurd (combine_lt_combine_of_high_lt k l2 l1 hc hl2) (by omega)
  · rintro (hc | ⟨rfl, hc⟩)
    · exact combine_lt_combine_of_high_lt k l1 l2 hc hl1
    · rw [combine, combine]
      omega

theorem combine_inj (k : Nat) {h1 l1 h2 l2 : Nat}
    (hl1 : l1 < 2 ^ (k / 2)) (hl2 : l2 < 2 ^ (k / 2))
    (heq : combine k h1 l1 = combine k h2 l2) : h1 = h2 ∧ l1 = l2 := by
  have hh : h1 = h2 := by
    have e1 := highPart_combine k h1 l1 hl1
    have e2 := highPart_combine k h2 l2 hl2
    rw [← e1, ← e2, heq]
  have hl : l1 = l2 := by
    have e1 := lowPart_combine k h1 l1 hl1
    have e2 := lowPart_combine k h2 l2 hl2
    rw [← e1, ← e2, heq]
  exact ⟨hh, hl⟩

/-! Linear bit-array scans of the leaf base case (spec §4.3): `scanUp bits i c`
inspects positions `i, i+1, …, i+c-1` in order and returns the first set bit;
`scanDown bits i c` inspects `i, i-1, …` for `c` positions and returns the
first set bit found going down. -/

def scanUp (bits i : Nat) : Nat → Option Nat
  | 0 => none
  | c + 1 => if bits.testBit i then some i else scanUp bits (i + 1) c

def scanDown (bits i : Nat) : Nat → Option Nat
  | 0 => none
  | c + 1 => if bits.testBit i then some i else scanDown bits (i - 1) c

theorem scanUp_eq_some {bits : Nat} :
    ∀ {c i m : Nat}, scanUp bits i c = some m →
      i ≤ m ∧ m < i + c ∧ bits.testBit m = true ∧
        ∀ j, i ≤ j → j < m → bits.testBit j = false := by
  intro c
  induction c with
  | zero => intro i m h; simp [scanUp] at h
  | succ c ih =>
    intro i m h
    rw [scanUp] at h
    by_cases hb : bits.testBit i
    · rw [if_pos hb] at h
      cases h
      exact ⟨Nat.le_refl _, by omega, hb, fun j hj1 hj2 => absurd hj1 (by omega)⟩
    · rw [if_neg hb] at h
      obtain ⟨h1, h2, h3, h4⟩ := ih h
      refine ⟨by omega, by omega, h3, fun j hj1 hj2 => ?_⟩
      rcases Nat.eq_or_lt_of_le hj1 with heq | hlt
      · rw [← heq]; exact Bool.eq_false_iff.mpr hb
      · exact h4 j hlt hj2

theorem scanUp_eq_none {bits : Nat} :
    ∀ {c i : Nat}, scanUp bits i c = none →
      ∀ j, i ≤ j → j < i + c → bits.testBit j = false := by
  intro c
  induction c with
  | zero => intro i _ j hj1 hj2; omega
  | succ c ih =>
    intro i h j hj1 hj2
    rw [scanUp] at h
    by_cases hb : bits.testBit i
    · rw [if_pos hb] at h; cases h
    · rw [if_neg hb] at h
      rcases Nat.eq_or_lt_of_le hj1 with heq | hlt
      · rw [← heq]; exact Bool.eq_false_iff.mpr hb
      · exact ih h j hlt (by omega)

theorem scanDown_full_spec {bits : Nat} :
    ∀ i : Nat,
      (∀ m, scanDown bits i (i + 1) = some m →
        m ≤ i ∧ bits.testBit m = true ∧ ∀ j, m < j → j ≤ i → bits.testBit j = false) ∧
      (scanDown bits i (i + 1) = none → ∀ j, j ≤ i → bits.testBit j = false) := by
  intro i
  induction i using Nat.strongRecOn with
  | ind i ih =>
    constructor
    · intro m h
      rw [scanDown] at h
      by_cases hb : bits.testBit i
      · rw [if_pos hb] at h
        cases h
        exact ⟨Nat.le_refl _, hb, fun j hj1 hj2 => absurd hj1 (by omega)⟩
      · rw [if_neg hb] at h
        cases i with
        | zero => rw [show scanDown bits (0 - 1) 0 = none from rfl] at h; cases h
        | succ i' =>
          have h' : scanDown bits i' (i' + 1) = some m := by
            simpa using h
          obtain ⟨h1, h2, h3⟩ := ((ih i' (by omega)).1) m h'
          refine ⟨by omega, h2, fun j hj1 hj2 => ?_⟩
          rcases Nat.eq_or_lt_of_le hj2 with heq | hlt
          · rw [heq]; exact Bool.eq_false_iff.mpr hb
          · exact h3 j hj1 (by omega)
    · intro h j hj
      rw [scanDown] at h
      by_cases hb : bits.testBit i
      · rw [if_pos hb] at h; cases h
      · cases i with
        | zero =>
          have hj0 : j = 0 := by omega
          rw [hj0]; exact Bool.eq_false_iff.mpr hb
        | succ i' =>
          rw [if_neg hb] at h
          have h' : scanDown bits i' (i' + 1) = none := by simpa using h
          rcases Nat.eq_or_lt_of_le hj with heq | hlt
          · rw [heq]; exact Bool.eq_false_iff.mpr hb
          · exact ((ih i' (by omega)).2) h' j (by omega)

/-- A vEB subtree.  The source stores a `void*` that points either at a `Node`
(min/max caches, empty flag, summary pointer, child-pointer array) or, once
the level handles at most `BASE_BITS = 4` bits, at a raw bit array; the two
constructors mirror the two interpretations, the bit array being the natural
number whose bit `i` is set iff `i` is stored (spec §3, `VanEmdeBoasTree.h`
lines 158–212).  Which interpretation applies is decided by the level's bit
count `k`, exactly as the source decides by `numBits`. -/
inductive VTree : Type where
  | leaf (bits : Nat) : VTree
  | node (mIsEmpty : Bool) (mMin mMax : Nat) (mSummary : VTree) (mChildren : List VTree) : VTree

/-- Modelled from the spec: `build(k)` (spec §4.4) — an empty bit array at or
below 4 bits, otherwise an internal node marked empty with a summary of
`ceil(k/2)` bits and `2 ^ ceil(k/2)` children of `floor(k/2)` bits each. -/
def recCreateTree (k : Nat) : VTree :=
  if hk : k ≤ 4 then .leaf 0
  else .node true 0 0 (recCreateTree ((k + 1) / 2))
    (List.replicate (2 ^ ((k + 1) / 2)) (recCreateTree (k / 2)))
termination_by k
decreasing_by all_goals omega

/-- Modelled from the spec: `deep_copy` / `recCloneTree` (spec §4.4) — a
structural clone with identical bit layout and no node sharing. -/
def recCloneTree (t : VTree) (k : Nat) : VTree :=
  if hk : k ≤ 4 then
    match t with
    | .leaf bits => .leaf bits
    | .node e mn mx summ cs => .node e mn mx summ cs
  else
    match t with
    | .leaf bits => .leaf bits
    | .node e mn mx summ cs =>
        .node e mn mx (recCloneTree summ ((k + 1) / 2))
          (cs.map (fun c => recCloneTree c (k / 2)))
termination_by k
decreasing_by all_goals omega

/-- Modelled from the spec: whether a subtree is empty — the `is_empty` flag of
an internal node, or an all-zero bit array at the base case (spec §3). -/
def isTreeEmpty (t : VTree) (k : Nat) : Bool :=
  if k ≤ 4 then
    match t with
    | .leaf bits => bits == 0
    | .node _ _ _ _ _ => true
  else
    match t with
    | .leaf _ => true
    | .node e _ _ _ _ => e

/-- Modelled from the spec: `min_of` (spec §4.2) — the cached min of a
non-empty internal node, a linear bit scan at the base case, `none` when
empty. -/
def treeMin (t : VTree) (k : Nat) : Option Nat :=
  if k ≤ 4 then
    match t with
    | .leaf bits => scanUp bits 0 (2 ^ k)
    | .node _ _ _ _ _ => none
  else
    match t with
    | .leaf _ => none
    | .node e mn _ _ _ => if e then none else some mn

/-- Modelled from the spec: `max_of` (spec §4.2) — the cached max of a
non-empty internal node, a downward bit scan at the base case, `none` when
empty. -/
def treeMax (t : VTree) (k : Nat) : Option Nat :=
  if k ≤ 4 then
    match t with
    | .leaf bits => scanDown bits (2 ^ k - 1) (2 ^ k)
    | .node _ _ _ _ _ => none
  else
    match t with
    | .leaf _ => none
    | .node e _ mx _ _ => if e then none else some mx

/-- Modelled from the spec: `contains(x, node, k)` (spec §4.2) — false on an
empty node, true when `x` matches a cached extremum, a bit test at the base
case, otherwise a recursive search for the low bits inside the child indexed
by the high bits. -/
def recFindElement (x : Nat) (t : VTree) (k : Nat) : Bool :=
  if hk : k ≤ 4 then
    match t with
    | .leaf bits => bits.testBit x
    | .node _ _ _ _ _ => false
  else
    match t with
    | .leaf _ => false
    | .node e mn mx _ cs =>
        if e then false
        else if x = mn ∨ x = mx then true
        else recFindElement (lowPart k x) (cs.getD (highPart k x) (.leaf 0)) (k / 2)
termination_by k
decreasing_by all_goals omega

/-- Modelled from the spec: `successor(x, node, k)` (spec §4.2) — scan above
`x` at the base case; at an internal node return the min when `x` precedes it,
else look inside `x`'s own child when that child's max exceeds the low bits,
else descend into the first non-empty later child found through the summary,
else fall back on the cached max. -/
def recSuccessor (x : Nat) (t : VTree) (k : Nat) : Option Nat :=
  if hk : k ≤ 4 then
    match t with
    | .leaf bits => scanUp bits (x + 1) (2 ^ k - (x + 1))
    | .node _ _ _ _ _ => none
  else
    match t with
    | .leaf _ => none
    | .node e mn mx summ cs =>
        if e then none
        else if x < mn then some mn
        else
          match treeMax (cs.getD (highPart k x) (.leaf 0)) (k / 2) with
          | some cm =>
              if lowPart k x < cm then
                (recSuccessor (lowPart k x) (cs.getD (highPart k x) (.leaf 0)) (k / 2)).map
                  (combine k (highPart k x))
              else
                match recSuccessor (highPart k x) summ ((k + 1) / 2) with
                | some h2 =>
                    some (combine k h2 ((treeMin (cs.getD h2 (.leaf 0)) (k / 2)).getD 0))
                | none => if x < mx then some mx else none
          | none =>
              match recSuccessor (highPart k x) summ ((k + 1) / 2) with
              | some h2 =>
                  some (combine k h2 ((treeMin (cs.getD h2 (.leaf 0)) (k / 2)).getD 0))
              | none => if x < mx then some mx else none
termination_by k
decreasing_by all_goals omega

/-- Modelled from the spec: `predecessor(x, node, k)` (spec §4.2) — the dual
of the successor walk, with the extra final fallback on the cached min, which
is stored in no child. -/
def recPredecessor (x : Nat) (t : VTree) (k : Nat) : Option Nat :=
  if hk : k ≤ 4 then
    match t with
    | .leaf bits => scanDown bits (x - 1) x
    | .node _ _ _ _ _ => none
  else
    match t with
    | .leaf _ => none
    | .node e mn mx summ cs =>
        if e then none
        else if mx < x then some mx
        else
          match treeMin (cs.getD (highPart k x) (.leaf 0)) (k / 2) with
          | some cm =>
              if cm < lowPart k x then
                (recPredecessor (lowPart k x) (cs.getD (highPart k x) (.leaf 0)) (k / 2)).map
                  (combine k (highPart k x))
              else
                match recPredecessor (highPart k x) summ ((k + 1) / 2) with
                | some h2 =>
                    some (combine k h2 ((treeMax (cs.getD h2 (.leaf 0)) (k / 2)).getD 0))
                | none => if mn < x then some mn else none
          | none =>
              match recPredecessor (highPart k x) summ ((k + 1) / 2) with
              | some h2 =>
                  some (combine k h2 ((treeMax (cs.getD h2 (.leaf 0)) (k / 2)).getD 0))
              | none => if mn < x then some mn else none
termination_by k
decreasing_by all_goals omega

/-- Modelled from the spec: `insert(x, node, k)` (spec §4.2) — set the bit at
the base case; claim an empty node by setting `min = max = x` without touching
any child; report a duplicate extremum; otherwise swap `x` with the min when
smaller, stretch the max when larger, and store the displaced value's low bits
in the child named by its high bits, first registering that child in the
summary when it was empty.  Returns the `inserted?` flag paired with the
updated subtree. -/
def recInsertElement (x : Nat) (t : VTree) (k : Nat) : Bool × VTree :=
  if hk : k ≤ 4 then
    match t with
    | .leaf bits =>
        if bits.testBit x then (false, .leaf bits) else (true, .leaf (bits ||| 2 ^ x))
    | .node e mn mx summ cs => (false, .node e mn mx summ cs)
  else
    match t with
    | .leaf bits => (false, .leaf bits)
    | .node e mn mx summ cs =>
        if e then (true, .node false x x summ cs)
        else if x = mn ∨ x = mx then (false, .node e mn mx summ cs)
        else
          let mn' := if x < mn then x else mn
          let v := if x < mn then mn else x
          let mx' := if mx < x then x else mx
          let c := cs.getD (highPart k v) (.leaf 0)
          let summ' :=
            if isTreeEmpty c (k / 2) then
              (recInsertElement (highPart k v) summ ((k + 1) / 2)).2
            else summ
          let r := recInsertElement (lowPart k v) c (k / 2)
          (r.1, .node false mn' mx' summ' (cs.set (highPart k v) r.2))
termination_by k
decreasing_by all_goals omega

/-- Modelled from the spec: recomputation of a node's cached max after a
removal (spec §4.2 erase, max case) — the max reverts to the cached min when
no child stores anything any more, and otherwise is recombined from the
summary's max and that child's max, reflecting invariant §3.3 that the max is
the largest child-stored value. -/
def eraseMaxAux (k mn : Nat) (summ2 : VTree) (cs2 : List VTree) : Nat :=
  if isTreeEmpty summ2 ((k + 1) / 2) then mn
  else
    combine k ((treeMax summ2 ((k + 1) / 2)).getD 0)
      ((treeMax (cs2.getD ((treeMax summ2 ((k + 1) / 2)).getD 0) (.leaf 0)) (k / 2)).getD 0)

/-- Modelled from the spec: `erase(x, node, k)` (spec §4.2) — clear the bit at
the base case; empty the node when it held the single element `x`; when `x` is
the min, promote the smallest child-stored element (found through the summary
min) to the min slot and remove it from its child; when `x` is the max, remove
it from its child and recompute the max from the summary max and that child's
max (the spec fixes the new max after the removal, since its invariant §3.3
keeps the max child-stored); otherwise remove the low bits from the child
named by the high bits when the summary knows that child.  A child that becomes
empty is expunged from the summary.  Returns the `removed?` flag paired with
the updated subtree. -/
def recEraseElement (x : Nat) (t : VTree) (k : Nat) : Bool × VTree :=
  if hk : k ≤ 4 then
    match t with
    | .leaf bits =>
        if bits.testBit x then (true, .leaf (bits ^^^ 2 ^ x)) else (false, .leaf bits)
    | .node e mn mx summ cs => (false, .node e mn mx summ cs)
  else
    match t with
    | .leaf bits => (false, .leaf bits)
    | .node e mn mx summ cs =>
        if e then (false, .node e mn mx summ cs)
        else if mn = mx then
          if x = mn then (true, .node true mn mx summ cs)
          else (false, .node e mn mx summ cs)
        else if x = mn then
          if isTreeEmpty summ ((k + 1) / 2) then (true, .node false mx mx summ cs)
          else
            let h := (treeMin summ ((k + 1) / 2)).getD 0
            let c := cs.getD h (.leaf 0)
            let l := (treeMin c (k / 2)).getD 0
            let c' := (recEraseElement l c (k / 2)).2
            let summ' :=
              if isTreeEmpty c' (k / 2) then (recEraseElement h summ ((k + 1) / 2)).2
              else summ
            (true, .node false (combine k h l) mx summ' (cs.set h c'))
        else if x = mx then
          if isTreeEmpty summ ((k + 1) / 2) then (true, .node false mn mn summ cs)
          else
            let h := (treeMax summ ((k + 1) / 2)).getD 0
            let c := cs.getD h (.leaf 0)
            let l := (treeMax c (k / 2)).getD 0
            let c' := (recEraseElement l c (k / 2)).2
            let cs' := cs.set h c'
            let summ' :=
              if isTreeEmpty c' (k / 2) then (recEraseElement h summ ((k + 1) / 2)).2
              else summ
            (true, .node false mn (eraseMaxAux k mn summ' cs') summ' cs')
        else
          if recFindElement (highPart k x) summ ((k + 1) / 2) then
            let r := recEraseElement (lowPart k x) (cs.getD (highPart k x) (.leaf 0)) (k / 2)
            let summ' :=
              if isTreeEmpty r.2 (k / 2) then (recEraseElement (highPart k x) summ ((k + 1) / 2)).2
              else summ
            (r.1, .node false mn mx summ' (cs.set (highPart k x) r.2))
          else (false, .node e mn mx summ cs)
termination_by k
decreasing_by all_goals omega

/-! List helpers for the child-pointer array. -/

theorem getD_set_self {cs : List VTree} {i : Nat} {c d : VTree} (h : i < cs.length) :
    (cs.set i c).getD i d = c := by
  induction cs generalizing i with
  | nil => simp at h
  | cons a l ih =>
    cases i with
    | zero => rfl
    | succ i => exact ih (by simpa using h)

theorem getD_set_ne {cs : List VTree} {i j : Nat} {c d : VTree} (h : i ≠ j) :
    (cs.set i c).getD j d = cs.getD j d := by
  induction cs generalizing i j with
  | nil => simp [List.set]
  | cons a l ih =>
    cases i with
    | zero =>
      cases j with
      | zero => exact absurd rfl h
      | succ j => rfl
    | succ i =>
      cases j with
      | zero => rfl
      | succ j => exact ih (by omega)

theorem getD_mem {cs : List VTree} {i : Nat} {d : VTree} (h : i < cs.length) :
    cs.getD i d ∈ cs := by
  induction cs generalizing i with
  | nil => simp at h
  | cons a l ih =>
    cases i with
    | zero => exact List.mem_cons_self a l
    | succ i => exact List.mem_cons_of_mem _ (ih (by simpa using h))

theorem mem_of_mem_set {cs : List VTree} {i : Nat} {c a : VTree} (h : a ∈ cs.set i c) :
    a = c ∨ a ∈ cs := by
  induction cs generalizing i with
  | nil => simp [List.set] at h
  | cons b l ih =>
    cases i with
    | zero =>
      rcases List.mem_cons.mp h with h1 | h1
      · exact Or.inl h1
      · exact Or.inr (List.mem_cons_of_mem _ h1)
    | succ i =>
      rcases List.mem_cons.mp h with h1 | h1
      · exact Or.inr (h1 ▸ List.mem_cons_self b l)
      · rcases ih h1 with h2 | h2
        · exact Or.inl h2
        · exact Or.inr (List.mem_cons_of_mem _ h2)

/-- Abstraction function: the set of values stored in a subtree of `k` bits.
A bit array denotes its set bits; a non-empty internal node stores its cached
min plus, recombined from their high and low halves, the values stored in its
children (spec §3, invariants 1–3). -/
def treeElems (t : VTree) (k : Nat) : Finset Nat :=
  if hk : k ≤ 4 then
    match t with
    | .leaf bits => (Finset.range (2 ^ k)).filter (fun i => bits.testBit i = true)
    | .node _ _ _ _ _ => ∅
  else
    match t with
    | .leaf _ => ∅
    | .node e mn _ _ cs =>
        if e then ∅
        else
          insert mn ((Finset.range (2 ^ ((k + 1) / 2))).biUnion
            (fun h => (treeElems (cs.getD h (.leaf 0)) (k / 2)).image (fun l => combine k h l)))
termination_by k
decreasing_by all_goals omega

/-- The values stored in the children of an internal node of `k` bits,
recombined with their child indices. -/
def childElems (cs : List VTree) (k : Nat) : Finset Nat :=
  (Finset.range (2 ^ ((k + 1) / 2))).biUnion
    (fun h => (treeElems (cs.getD h (.leaf 0)) (k / 2)).image (fun l => combine k h l))

theorem treeElems_leaf {k : Nat} (hk : k ≤ 4) (bits : Nat) :
    treeElems (.leaf bits) k = (Finset.range (2 ^ k)).filter (fun i => bits.testBit i = true) := by
  unfold treeElems
  rw [dif_pos hk]

theorem treeElems_node {k : Nat} (hk : ¬ k ≤ 4) (e : Bool) (mn mx : Nat) (summ : VTree)
    (cs : List VTree) :
    treeElems (.node e mn mx summ cs) k = if e then ∅ else insert mn (childElems cs k) := by
  unfold treeElems
  rw [dif_neg hk]
  rfl

theorem mem_treeElems_leaf {k : Nat} (hk : k ≤ 4) {bits x : Nat} :
    x ∈ treeElems (.leaf bits) k ↔ x < 2 ^ k ∧ bits.testBit x = true := by
  rw [treeElems_leaf hk]
  simp [Finset.mem_filter, Finset.mem_range]

theorem mem_childElems {cs : List VTree} {k y : Nat} :
    y ∈ childElems cs k ↔ ∃ h, h < 2 ^ ((k + 1) / 2) ∧
      ∃ l, l ∈ treeElems (cs.getD h (.leaf 0)) (k / 2) ∧ y = combine k h l := by
  simp only [childElems, Finset.mem_biUnion, Finset.mem_image, Finset.mem_range]
  constructor
  · rintro ⟨h, hh, l, hl, rfl⟩
    exact ⟨h, hh, l, hl, rfl⟩
  · rintro ⟨h, hh, l, hl, rfl⟩
    exact ⟨h, hh, l, hl, rfl⟩

theorem combine_mem_childElems {cs : List VTree} {k h l : Nat}
    (hh : h < 2 ^ ((k + 1) / 2)) (hl : l ∈ treeElems (cs.getD h (.leaf 0)) (k / 2)) :
    combine k h l ∈ childElems cs k :=
  mem_childElems.mpr ⟨h, hh, l, hl, rfl⟩

/-- The representation invariant of a vEB subtree of `k` bits (spec §3,
"Internal node invariants" and "Leaf invariants"): a leaf at the base case
holding only bits below `2 ^ k`; an internal node above the base case whose
summary holds exactly the indices of the non-empty children, whose cached min
is strictly below every child-stored value (hence stored in no child), and
whose cached max is the largest child-stored value, or equals the min when no
child stores anything. -/
inductive Inv : VTree → Nat → Prop where
  | leaf {k bits : Nat} (hk : k ≤ 4) (hb : bits < 2 ^ 2 ^ k) : Inv (.leaf bits) k
  | emptyNode {k mn mx : Nat} {summ : VTree} {cs : List VTree}
      (hk : 4 < k)
      (hlen : cs.length = 2 ^ ((k + 1) / 2))
      (hsumm : Inv summ ((k + 1) / 2))
      (hch : ∀ c ∈ cs, Inv c (k / 2))
      (hse : treeElems summ ((k + 1) / 2) = ∅)
      (hce : ∀ c ∈ cs, treeElems c (k / 2) = ∅) :
      Inv (.node true mn mx summ cs) k
  | fullNode {k mn mx : Nat} {summ : VTree} {cs : List VTree}
      (hk : 4 < k)
      (hlen : cs.length = 2 ^ ((k + 1) / 2))
      (hsumm : Inv summ ((k + 1) / 2))
      (hch : ∀ c ∈ cs, Inv c (k / 2))
      (hsummEq : treeElems summ ((k + 1) / 2) =
        (Finset.range (2 ^ ((k + 1) / 2))).filter
          (fun h => (treeElems (cs.getD h (.leaf 0)) (k / 2)).Nonempty))
      (hmn : mn < 2 ^ k) (hmx : mx < 2 ^ k)
      (hminlt : ∀ y ∈ childElems cs k, mn < y)
      (hmaxE : childElems cs k = ∅ → mx = mn)
      (hmaxNE : (childElems cs k).Nonempty →
        mx ∈ childElems cs k ∧ ∀ y ∈ childElems cs k, y ≤ mx) :
      Inv (.node false mn mx summ cs) k

theorem elems_subset_range {t : VTree} {k : Nat} (hinv : Inv t k) :
    treeElems t k ⊆ Finset.range (2 ^ k) := by
  induction hinv with
  | leaf hk hb =>
    rw [treeElems_leaf hk]
    exact Finset.filter_subset _ _
  | emptyNode hk hlen hsumm hch hse hce =>
    rw [treeElems_node (by omega)]
    simp
  | @fullNode k' mn mx summ cs hk hlen hsumm hch hsummEq hmn hmx hminlt hmaxE hmaxNE ihsumm ihch =>
    rw [treeElems_node (by omega), if_neg (by simp)]
    intro y hy
    rcases Finset.mem_insert.mp hy with rfl | hy
    · exact Finset.mem_range.mpr hmn
    · rcases mem_childElems.mp hy with ⟨h, hh, l, hl, rfl⟩
      have hsub := ihch (cs.getD h (.leaf 0)) (getD_mem (by rw [hlen]; exact hh))
      have hlr := Finset.mem_range.mp (hsub hl)
      exact Finset.mem_range.mpr (combine_lt _ _ _ hh hlr)

/-! Characterizations of optional query results against the abstract set.
The sentinel (`kNil` in the source) is `none`. -/

/-- The result names the smallest member of `s`, or is `none` when `s` is empty. -/
def isMinOf (s : Finset Nat) : Option Nat → Prop
  | none => s = ∅
  | some m => m ∈ s ∧ ∀ y ∈ s, m ≤ y

/-- The result names the largest member of `s`, or is `none` when `s` is empty. -/
def isMaxOf (s : Finset Nat) : Option Nat → Prop
  | none => s = ∅
  | some m => m ∈ s ∧ ∀ y ∈ s, y ≤ m

/-- The result names the smallest member of `s` strictly above `x`, or is
`none` when every member of `s` is at most `x`. -/
def isLeastAbove (s : Finset Nat) (x : Nat) : Option Nat → Prop
  | none => ∀ y ∈ s, y ≤ x
  | some m => m ∈ s ∧ x < m ∧ ∀ y ∈ s, x < y → m ≤ y

/-- The result names the largest member of `s` strictly below `x`, or is
`none` when every member of `s` is at least `x`. -/
def isGreatestBelow (s : Finset Nat) (x : Nat) : Option Nat → Prop
  | none => ∀ y ∈ s, x ≤ y
  | some m => m ∈ s ∧ m < x ∧ ∀ y ∈ s, y < x → y ≤ m

theorem isTreeEmpty_node {k : Nat} (hk : ¬ k ≤ 4) (e : Bool) (mn mx : Nat) (summ : VTree)
    (cs : List VTree) : isTreeEmpty (.node e mn mx summ cs) k = e := by
  simp [isTreeEmpty, hk]

theorem isTreeEmpty_leaf {k : Nat} (hk : k ≤ 4) (bits : Nat) :
    isTreeEmpty (.leaf bits) k = (bits == 0) := by
  simp [isTreeEmpty, hk]

theorem treeMin_node {k : Nat} (hk : ¬ k ≤ 4) (e : Bool) (mn mx : Nat) (summ : VTree)
    (cs : List VTree) :
    treeMin (.node e mn mx summ cs) k = if e then none else some mn := by
  simp [treeMin, hk]

theorem treeMax_node {k : Nat} (hk : ¬ k ≤ 4) (e : Bool) (mn mx : Nat) (summ : VTree)
    (cs : List VTree) :
    treeMax (.node e mn mx summ cs) k = if e then none else some mx := by
  simp [treeMax, hk]

theorem pos_lt_of_testBit {bits i k : Nat} (hb : bits < 2 ^ 2 ^ k)
    (hi : bits.testBit i = true) : i < 2 ^ k := by
  by_contra hcon
  have h1 : 2 ^ i ≤ bits := Nat.testBit_implies_ge hi
  have h2 : (2 : Nat) ^ 2 ^ k ≤ 2 ^ i := Nat.pow_le_pow_right (by omega) (by omega)
  omega

theorem isTreeEmpty_iff {t : VTree} {k : Nat} (hinv : Inv t k) :
    isTreeEmpty t k = true ↔ treeElems t k = ∅ := by
  cases hinv with
  | leaf hk hb =>
    rename_i bits
    rw [treeElems_leaf hk]
    simp only [isTreeEmpty, if_pos hk, beq_iff_eq]
    constructor
    · intro h0
      subst h0
      simp
    · intro hemp
      by_contra h0
      obtain ⟨i, hi⟩ := Nat.ne_zero_implies_bit_true h0
      have hilt : i < 2 ^ k := pos_lt_of_testBit hb hi
      have : i ∈ (Finset.range (2 ^ k)).filter (fun i => bits.testBit i = true) := by
        simp [Finset.mem_filter, Finset.mem_range, hilt, hi]
      rw [hemp] at this
      simp at this
  | emptyNode hk hlen hsumm hch hse hce =>
    rw [treeElems_node (by omega), if_pos rfl, isTreeEmpty_node (by omega)]
    simp
  | fullNode hk hlen hsumm hch hsummEq hmn hmx hminlt hmaxE hmaxNE =>
    rw [treeElems_node (by omega), if_neg (by simp), isTreeEmpty_node (by omega)]
    simp [Finset.insert_ne_empty]

theorem treeMin_spec {t : VTree} {k : Nat} (hinv : Inv t k) :
    isMinOf (treeElems t k) (treeMin t k) := by
  cases hinv with
  | leaf hk hb =>
    rename_i bits
    simp only [treeMin, if_pos hk]
    cases hscan : scanUp bits 0 (2 ^ k) with
    | none =>
      have hall := scanUp_eq_none hscan
      simp only [isMinOf]
      rw [treeElems_leaf hk]
      rw [Finset.filter_eq_empty_iff]
      intro j hj
      simp [hall j (by omega) (by simpa using Finset.mem_range.mp hj)]
    | some m =>
      obtain ⟨h1, h2, h3, h4⟩ := scanUp_eq_some hscan
      simp only [isMinOf]
      constructor
      · rw [mem_treeElems_leaf hk]
        exact ⟨by omega, h3⟩
      · intro y hy
        rw [mem_treeElems_leaf hk] at hy
        by_contra hcon
        rw [h4 y (by omega) (by omega)] at hy
        simp at hy
  | emptyNode hk hlen hsumm hch hse hce =>
    rw [treeMin_node (by omega), if_pos rfl]
    simp only [isMinOf]
    rw [treeElems_node (by omega), if_pos rfl]
  | @fullNode k' mn mx summ cs hk hlen hsumm hch hsummEq hmn hmx hminlt hmaxE hmaxNE =>
    rw [treeMin_node (by omega), if_neg (by simp)]
    simp only [isMinOf]
    rw [treeElems_node (by omega), if_neg (by simp)]
    refine ⟨Finset.mem_insert_self _ _, fun y hy => ?_⟩
    rcases Finset.mem_insert.mp hy with rfl | hy
    · exact Nat.le_refl _
    · exact Nat.le_of_lt (hminlt y hy)

theorem treeMax_spec {t : VTree} {k : Nat} (hinv : Inv t k) :
    isMaxOf (treeElems t k) (treeMax t k) := by
  cases hinv with
  | leaf hk hb =>
    rename_i bits
    simp only [treeMax, if_pos hk]
    have hcnt : 2 ^ k = (2 ^ k - 1) + 1 := by
      have := Nat.pos_pow_of_pos k (show 0 < 2 by omega)
      omega
    obtain ⟨hsome, hnone⟩ := @scanDown_full_spec bits (2 ^ k - 1)
    cases hscan : scanDown bits (2 ^ k - 1) (2 ^ k) with
    | none =>
      rw [hcnt] at hscan
      have hall := hnone hscan
      simp only [isMaxOf]
      rw [treeElems_leaf hk, Finset.filter_eq_empty_iff]
      intro j hj
      simp [hall j (by
        have := Finset.mem_range.mp hj
        omega)]
    | some m =>
      rw [hcnt] at hscan
      obtain ⟨h1, h2, h3⟩ := hsome m hscan
      simp only [isMaxOf]
      constructor
      · rw [mem_treeElems_leaf hk]
        refine ⟨by omega, h2⟩
      · intro y hy
        rw [mem_treeElems_leaf hk] at hy
        by_contra hcon
        rw [h3 y (by omega) (by omega)] at hy
        simp at hy
  | emptyNode hk hlen hsumm hch hse hce =>
    rw [treeMax_node (by omega), if_pos rfl]
    simp only [isMaxOf]
    rw [treeElems_node (by omega), if_pos rfl]
  | @fullNode k' mn mx summ cs hk hlen hsumm hch hsummEq hmn hmx hminlt hmaxE hmaxNE =>
    rw [treeMax_node (by omega), if_neg (by simp)]
    simp only [isMaxOf]
    rw [treeElems_node (by omega), if_neg (by simp)]
    constructor
    · rcases Finset.eq_empty_or_nonempty (childElems cs k) with hemp | hne
      · rw [hmaxE hemp]
        exact Finset.mem_insert_self _ _
      · exact Finset.mem_insert_of_mem (hmaxNE hne).1
    · intro y hy
      rcases Finset.mem_insert.mp hy with rfl | hy
      · rcases Finset.eq_empty_or_nonempty (childElems cs k) with hemp | hne
        · rw [hmaxE hemp]
        · exact Nat.le_of_lt (hminlt mx (hmaxNE hne).1)
      · rcases Finset.eq_empty_or_nonempty (childElems cs k) with hemp | hne
        · rw [hemp] at hy
          simp at hy
        · exact (hmaxNE hne).2 y hy

/-! Helper views of a well-formed internal node. -/

theorem child_inv {k : Nat} {cs : List VTree} (hlen : cs.length = 2 ^ ((k + 1) / 2))
    (hch : ∀ c ∈ cs, Inv c (k / 2)) {h : Nat} (hh : h < 2 ^ ((k + 1) / 2)) :
    Inv (cs.getD h (.leaf 0)) (k / 2) :=
  hch _ (getD_mem (by rw [hlen]; exact hh))

theorem mem_childElems_iff {k : Nat} {cs : List VTree} (hlen : cs.length = 2 ^ ((k + 1) / 2))
    (hch : ∀ c ∈ cs, Inv c (k / 2)) {y : Nat} :
    y ∈ childElems cs k ↔ highPart k y < 2 ^ ((k + 1) / 2) ∧
      lowPart k y ∈ treeElems (cs.getD (highPart k y) (.leaf 0)) (k / 2) := by
  constructor
  · intro hy
    rcases mem_childElems.mp hy with ⟨h, hh, l, hl, rfl⟩
    have hlb : l < 2 ^ (k / 2) :=
      Finset.mem_range.mp (elems_subset_range (child_inv hlen hch hh) hl)
    rw [highPart_combine _ _ _ hlb, lowPart_combine _ _ _ hlb]
    exact ⟨hh, hl⟩
  · rintro ⟨hh, hl⟩
    have := combine_mem_childElems hh hl
    rwa [combine_highPart_lowPart] at this

theorem childElems_lt {k : Nat} {cs : List VTree} (hlen : cs.length = 2 ^ ((k + 1) / 2))
    (hch : ∀ c ∈ cs, Inv c (k / 2)) {y : Nat} (hy : y ∈ childElems cs k) : y < 2 ^ k := by
  rcases mem_childElems.mp hy with ⟨h, hh, l, hl, rfl⟩
  have hlb : l < 2 ^ (k / 2) :=
    Finset.mem_range.mp (elems_subset_range (child_inv hlen hch hh) hl)
  exact combine_lt _ _ _ hh hlb

theorem summ_mem_iff {k : Nat} {summ : VTree} {cs : List VTree}
    (hsummEq : treeElems summ ((k + 1) / 2) =
      (Finset.range (2 ^ ((k + 1) / 2))).filter
        (fun h => (treeElems (cs.getD h (.leaf 0)) (k / 2)).Nonempty)) {h : Nat} :
    h ∈ treeElems summ ((k + 1) / 2) ↔
      h < 2 ^ ((k + 1) / 2) ∧ (treeElems (cs.getD h (.leaf 0)) (k / 2)).Nonempty := by
  rw [hsummEq]
  simp [Finset.mem_filter, Finset.mem_range]

theorem mx_mem_full {k mn mx : Nat} {cs : List VTree}
    (hmaxE : childElems cs k = ∅ → mx = mn)
    (hmaxNE : (childElems cs k).Nonempty →
      mx ∈ childElems cs k ∧ ∀ y ∈ childElems cs k, y ≤ mx) :
    mx ∈ insert mn (childElems cs k) := by
  rcases Finset.eq_empty_or_nonempty (childElems cs k) with hemp | hne
  · rw [hmaxE hemp]
    exact Finset.mem_insert_self _ _
  · exact Finset.mem_insert_of_mem (hmaxNE hne).1

/-! Unfolding equations of the recursive operations. -/

theorem recFindElement_leaf {k : Nat} (hk : k ≤ 4) (x bits : Nat) :
    recFindElement x (.leaf bits) k = bits.testBit x := by
  unfold recFindElement
  rw [dif_pos hk]

theorem recFindElement_node {k : Nat} (hk : ¬ k ≤ 4) (x : Nat) (e : Bool) (mn mx : Nat)
    (summ : VTree) (cs : List VTree) :
    recFindElement x (.node e mn mx summ cs) k =
      if e then false
      else if x = mn ∨ x = mx then true
      else recFindElement (lowPart k x) (cs.getD (highPart k x) (.leaf 0)) (k / 2) := by
  conv_lhs => unfold recFindElement
  rw [dif_neg hk]

theorem recFindElement_spec {t : VTree} {k : Nat} (hinv : Inv t k) :
    ∀ x, x < 2 ^ k → (recFindElement x t k = true ↔ x ∈ treeElems t k) := by
  induction hinv with
  | leaf hk hb =>
    intro x hx
    rw [recFindElement_leaf hk, mem_treeElems_leaf hk]
    simp [hx]
  | emptyNode hk hlen hsumm hch hse hce =>
    intro x hx
    rw [recFindElement_node (by omega), if_pos rfl, treeElems_node (by omega), if_pos rfl]
    simp
  | @fullNode k mn mx summ cs hk hlen hsumm hch hsummEq hmn hmx hminlt hmaxE hmaxNE ihsumm ihch =>
    intro x hx
    rw [recFindElement_node (by omega), if_neg Bool.false_ne_true, treeElems_node (by omega),
      if_neg Bool.false_ne_true]
    by_cases hmm : x = mn ∨ x = mx
    · rw [if_pos hmm]
      simp only [true_iff]
      rcases hmm with rfl | rfl
      · exact Finset.mem_insert_self _ _
      · exact mx_mem_full hmaxE hmaxNE
    · rw [if_neg hmm]
      push_neg at hmm
      have hhx : highPart k x < 2 ^ ((k + 1) / 2) := highPart_lt _ _ hx
      have hih := ihch (cs.getD (highPart k x) (.leaf 0))
        (getD_mem (by rw [hlen]; exact hhx)) (lowPart k x) (lowPart_lt _ _)
      rw [hih]
      constructor
      · intro hlmem
        exact Finset.mem_insert_of_mem ((mem_childElems_iff hlen hch).mpr ⟨hhx, hlmem⟩)
      · intro hmem
        rcases Finset.mem_insert.mp hmem with rfl | hmem
        · exact absurd rfl hmm.1
        · exact ((mem_childElems_iff hlen hch).mp hmem).2

theorem combine_le_combine_right {k : Nat} (h : Nat) {l1 l2 : Nat} (hl : l1 ≤ l2) :
    combine k h l1 ≤ combine k h l2 := by
  rw [combine, combine]
  omega

theorem recSuccessor_leaf {k : Nat} (hk : k ≤ 4) (x bits : Nat) :
    recSuccessor x (.leaf bits) k = scanUp bits (x + 1) (2 ^ k - (x + 1)) := by
  unfold recSuccessor
  rw [dif_pos hk]

theorem recSuccessor_node {k : Nat} (hk : ¬ k ≤ 4) (x : Nat) (e : Bool) (mn mx : Nat)
    (summ : VTree) (cs : List VTree) :
    recSuccessor x (.node e mn mx summ cs) k =
      if e then none
      else if x < mn then some mn
      else
        match treeMax (cs.getD (highPart k x) (.leaf 0)) (k / 2) with
        | some cm =>
            if lowPart k x < cm then
              (recSuccessor (lowPart k x) (cs.getD (highPart k x) (.leaf 0)) (k / 2)).map
                (combine k (highPart k x))
            else
              match recSuccessor (highPart k x) summ ((k + 1) / 2) with
              | some h2 =>
                  some (combine k h2 ((treeMin (cs.getD h2 (.leaf 0)) (k / 2)).getD 0))
              | none => if x < mx then some mx else none
        | none =>
            match recSuccessor (highPart k x) summ ((k + 1) / 2) with
            | some h2 =>
                some (combine k h2 ((treeMin (cs.getD h2 (.leaf 0)) (k / 2)).getD 0))
            | none => if x < mx then some mx else none := by
  conv_lhs => unfold recSuccessor
  rw [dif_neg hk]

/-- Correctness of the summary-directed part of the successor walk: when `x`'s
own child stores nothing above `x`'s low bits, the successor is the min of the
next non-empty child, or the cached max fallback (which under the invariant
yields `none`). -/
theorem succ_via_summary {k mn mx x : Nat} {summ : VTree} {cs : List VTree}
    (hk : 4 < k)
    (hlen : cs.length = 2 ^ ((k + 1) / 2))
    (hch : ∀ c ∈ cs, Inv c (k / 2))
    (hsummEq : treeElems summ ((k + 1) / 2) =
      (Finset.range (2 ^ ((k + 1) / 2))).filter
        (fun h => (treeElems (cs.getD h (.leaf 0)) (k / 2)).Nonempty))
    (hmaxE : childElems cs k = ∅ → mx = mn)
    (hmaxNE : (childElems cs k).Nonempty →
      mx ∈ childElems cs k ∧ ∀ y ∈ childElems cs k, y ≤ mx)
    (hx : x < 2 ^ k)
    (hxm : mn ≤ x)
    (hnl : ∀ l', l' ∈ treeElems (cs.getD (highPart k x) (.leaf 0)) (k / 2) →
      l' ≤ lowPart k x)
    (hss : isLeastAbove (treeElems summ ((k + 1) / 2)) (highPart k x)
      (recSuccessor (highPart k x) summ ((k + 1) / 2))) :
    isLeastAbove (insert mn (childElems cs k)) x
      (match recSuccessor (highPart k x) summ ((k + 1) / 2) with
       | some h2 => some (combine k h2 ((treeMin (cs.getD h2 (.leaf 0)) (k / 2)).getD 0))
       | none => if x < mx then some mx else none) := by
  have hxeq : combine k (highPart k x) (lowPart k x) = x := combine_highPart_lowPart k x
  cases hrs : recSuccessor (highPart k x) summ ((k + 1) / 2) with
  | some h2 =>
    show isLeastAbove (insert mn (childElems cs k)) x
      (some (combine k h2 ((treeMin (cs.getD h2 (.leaf 0)) (k / 2)).getD 0)))
    rw [hrs] at hss
    obtain ⟨hmem2, hlt2, hleast2⟩ := hss
    obtain ⟨hh2, hne2⟩ := (summ_mem_iff hsummEq).mp hmem2
    have hminspec := treeMin_spec (child_inv hlen hch hh2)
    cases hm : treeMin (cs.getD h2 (.leaf 0)) (k / 2) with
    | none =>
      rw [hm] at hminspec
      simp only [isMinOf] at hminspec
      rw [hminspec] at hne2
      exact absurd hne2 (by simp)
    | some m0 =>
      rw [hm] at hminspec
      obtain ⟨hm0mem, hm0least⟩ := hminspec
      have hm0lt : m0 < 2 ^ (k / 2) :=
        Finset.mem_range.mp (elems_subset_range (child_inv hlen hch hh2) hm0mem)
      simp only [Option.getD_some]
      refine ⟨Finset.mem_insert_of_mem (combine_mem_childElems hh2 hm0mem), ?_, ?_⟩
      · calc x = combine k (highPart k x) (lowPart k x) := hxeq.symm
          _ < combine k h2 m0 :=
            combine_lt_combine_of_high_lt k _ _ hlt2 (lowPart_lt _ _)
      · intro y hy hxy
        rcases Finset.mem_insert.mp hy with rfl | hy
        · omega
        · obtain ⟨hhy, hly⟩ := (mem_childElems_iff hlen hch).mp hy
          have hlyb : lowPart k y < 2 ^ (k / 2) := lowPart_lt _ _
          have hyeq : combine k (highPart k y) (lowPart k y) = y := combine_highPart_lowPart k y
          have hxy' : combine k (highPart k x) (lowPart k x) <
              combine k (highPart k y) (lowPart k y) := by rw [hxeq, hyeq]; exact hxy
          rcases (combine_lt_combine_iff k (lowPart_lt _ _) hlyb).mp hxy' with hc | ⟨hc, hc2⟩
          · have hys : highPart k y ∈ treeElems summ ((k + 1) / 2) :=
              (summ_mem_iff hsummEq).mpr ⟨hhy, ⟨_, hly⟩⟩
            have hge := hleast2 _ hys hc
            rcases Nat.eq_or_lt_of_le hge with heq | hlt
            · subst heq
              have := hm0least _ hly
              calc combine k (highPart k y) m0 ≤ combine k (highPart k y) (lowPart k y) :=
                  combine_le_combine_right _ this
                _ = y := hyeq
            · have hcl : combine k h2 m0 < combine k (highPart k y) (lowPart k y) :=
                combine_lt_combine_of_high_lt k _ _ hlt hm0lt
              omega
          · rw [← hc] at hly
            have := hnl _ hly
            omega
  | none =>
    show isLeastAbove (insert mn (childElems cs k)) x (if x < mx then some mx else none)
    rw [hrs] at hss
    have hall : ∀ y ∈ insert mn (childElems cs k), y ≤ x := by
      intro y hy
      rcases Finset.mem_insert.mp hy with rfl | hy
      · exact hxm
      · obtain ⟨hhy, hly⟩ := (mem_childElems_iff hlen hch).mp hy
        have hys : highPart k y ∈ treeElems summ ((k + 1) / 2) :=
          (summ_mem_iff hsummEq).mpr ⟨hhy, ⟨_, hly⟩⟩
        have hyh := hss _ hys
        have hyeq : combine k (highPart k y) (lowPart k y) = y := combine_highPart_lowPart k y
        rcases Nat.eq_or_lt_of_le hyh with heq | hlt
        · rw [heq] at hly
          have := hnl _ hly
          calc y = combine k (highPart k y) (lowPart k y) := hyeq.symm
            _ ≤ combine k (highPart k y) (lowPart k x) := combine_le_combine_right _ this
            _ = combine k (highPart k x) (lowPart k x) := by rw [heq]
            _ = x := hxeq
        · have hylt : y < x := by
            calc y = combine k (highPart k y) (lowPart k y) := hyeq.symm
              _ < combine k (highPart k x) (lowPart k x) :=
                combine_lt_combine_of_high_lt k _ _ hlt (lowPart_lt _ _)
              _ = x := hxeq
          omega
    have hmxle : mx ≤ x := hall mx (mx_mem_full hmaxE hmaxNE)
    rw [if_neg (by omega)]
    exact hall

theorem recSuccessor_spec {t : VTree} {k : Nat} (hinv : Inv t k) :
    ∀ x, x < 2 ^ k → isLeastAbove (treeElems t k) x (recSuccessor x t k) := by
  induction hinv with
  | @leaf kk bits hk hb =>
    intro x hx
    rw [recSuccessor_leaf hk]
    cases hscan : scanUp bits (x + 1) (2 ^ kk - (x + 1)) with
    | none =>
      have hall := scanUp_eq_none hscan
      simp only [isLeastAbove]
      intro y hy
      rw [mem_treeElems_leaf hk] at hy
      by_contra hcon
      rw [hall y (by omega) (by omega)] at hy
      simp at hy
    | some m =>
      obtain ⟨h1, h2, h3, h4⟩ := scanUp_eq_some hscan
      simp only [isLeastAbove]
      refine ⟨(mem_treeElems_leaf hk).mpr ⟨by omega, h3⟩, by omega, ?_⟩
      intro y hy hxy
      rw [mem_treeElems_leaf hk] at hy
      by_contra hcon
      rw [h4 y (by omega) (by omega)] at hy
      simp at hy
  | emptyNode hk hlen hsumm hch hse hce =>
    intro x hx
    rw [recSuccessor_node (by omega), if_pos rfl, treeElems_node (by omega), if_pos rfl]
    simp [isLeastAbove]
  | @fullNode k mn mx summ cs hk hlen hsumm hch hsummEq hmn hmx hminlt hmaxE hmaxNE ihsumm ihch =>
    intro x hx
    rw [recSuccessor_node (by omega), if_neg Bool.false_ne_true, treeElems_node (by omega),
      if_neg Bool.false_ne_true]
    have hxeq : combine k (highPart k x) (lowPart k x) = x := combine_highPart_lowPart k x
    have hhx : highPart k x < 2 ^ ((k + 1) / 2) := highPart_lt _ _ hx
    by_cases hxmn : x < mn
    · rw [if_pos hxmn]
      exact ⟨Finset.mem_insert_self _ _, hxmn, fun y hy hxy => by
        rcases Finset.mem_insert.mp hy with rfl | hy
        · exact Nat.le_refl _
        · exact Nat.le_of_lt (hminlt y hy)⟩
    · rw [if_neg hxmn]
      have hss := ihsumm (highPart k x) hhx
      have hcmax := treeMax_spec (child_inv hlen hch hhx)
      cases hmt : treeMax (cs.getD (highPart k x) (.leaf 0)) (k / 2) with
      | none =>
        show isLeastAbove (insert mn (childElems cs k)) x
          (match recSuccessor (highPart k x) summ ((k + 1) / 2) with
           | some h2 => some (combine k h2 ((treeMin (cs.getD h2 (.leaf 0)) (k / 2)).getD 0))
           | none => if x < mx then some mx else none)
        rw [hmt] at hcmax
        simp only [isMaxOf] at hcmax
        exact succ_via_summary hk hlen hch hsummEq hmaxE hmaxNE hx (by omega)
          (fun l' hl' => by rw [hcmax] at hl'; exact absurd hl' (by simp)) hss
      | some cm =>
        show isLeastAbove (insert mn (childElems cs k)) x
          (if lowPart k x < cm then
            (recSuccessor (lowPart k x) (cs.getD (highPart k x) (.leaf 0)) (k / 2)).map
              (combine k (highPart k x))
          else
            match recSuccessor (highPart k x) summ ((k + 1) / 2) with
            | some h2 => some (combine k h2 ((treeMin (cs.getD h2 (.leaf 0)) (k / 2)).getD 0))
            | none => if x < mx then some mx else none)
        rw [hmt] at hcmax
        obtain ⟨hcmmem, hcmmax⟩ := hcmax
        by_cases hlc : lowPart k x < cm
        · rw [if_pos hlc]
          have hcs := ihch (cs.getD (highPart k x) (.leaf 0))
            (getD_mem (by rw [hlen]; exact hhx)) (lowPart k x) (lowPart_lt _ _)
          cases hrc : recSuccessor (lowPart k x) (cs.getD (highPart k x) (.leaf 0)) (k / 2) with
          | none =>
            rw [hrc] at hcs
            have := hcs cm hcmmem
            omega
          | some s =>
            rw [hrc] at hcs
            obtain ⟨hsmem, hsgt, hsleast⟩ := hcs
            have hsb : s < 2 ^ (k / 2) :=
              Finset.mem_range.mp (elems_subset_range (child_inv hlen hch hhx) hsmem)
            simp only [Option.map_some']
            refine ⟨Finset.mem_insert_of_mem (combine_mem_childElems hhx hsmem), ?_, ?_⟩
            · calc x = combine k (highPart k x) (lowPart k x) := hxeq.symm
                _ < combine k (highPart k x) s := by rw [combine, combine]; omega
            · intro y hy hxy
              rcases Finset.mem_insert.mp hy with rfl | hy
              · omega
              · obtain ⟨hhy, hly⟩ := (mem_childElems_iff hlen hch).mp hy
                have hyeq : combine k (highPart k y) (lowPart k y) = y :=
                  combine_highPart_lowPart k y
                have hxy' : combine k (highPart k x) (lowPart k x) <
                    combine k (highPart k y) (lowPart k y) := by rw [hxeq, hyeq]; exact hxy
                rcases (combine_lt_combine_iff k (lowPart_lt _ _) (lowPart_lt _ _)).mp hxy'
                  with hc | ⟨hc, hc2⟩
                · have hcl : combine k (highPart k x) s <
                      combine k (highPart k y) (lowPart k y) :=
                    combine_lt_combine_of_high_lt k _ _ hc hsb
                  omega
                · rw [← hc] at hly
                  have := hsleast _ hly hc2
                  calc combine k (highPart k x) s ≤ combine k (highPart k x) (lowPart k y) :=
                      combine_le_combine_right _ this
                    _ = combine k (highPart k y) (lowPart k y) := by rw [hc]
                    _ = y := hyeq
        · rw [if_neg hlc]
          exact succ_via_summary hk hlen hch hsummEq hmaxE hmaxNE hx (by omega)
            (fun l' hl' => by have := hcmmax l' hl'; omega) hss

theorem recPredecessor_leaf {k : Nat} (hk : k ≤ 4) (x bits : Nat) :
    recPredecessor x (.leaf bits) k = scanDown bits (x - 1) x := by
  unfold recPredecessor
  rw [dif_pos hk]

theorem recPredecessor_node {k : Nat} (hk : ¬ k ≤ 4) (x : Nat) (e : Bool) (mn mx : Nat)
    (summ : VTree) (cs : List VTree) :
    recPredecessor x (.node e mn mx summ cs) k =
      if e then none
      else if mx < x then some mx
      else
        match treeMin (cs.getD (highPart k x) (.leaf 0)) (k / 2) with
        | some cm =>
            if cm < lowPart k x then
              (recPredecessor (lowPart k x) (cs.getD (highPart k x) (.leaf 0)) (k / 2)).map
                (combine k (highPart k x))
            else
              match recPredecessor (highPart k x) summ ((k + 1) / 2) with
              | some h2 =>
                  some (combine k h2 ((treeMax (cs.getD h2 (.leaf 0)) (k / 2)).getD 0))
              | none => if mn < x then some mn else none
        | none =>
            match recPredecessor (highPart k x) summ ((k + 1) / 2) with
            | some h2 =>
                some (combine k h2 ((treeMax (cs.getD h2 (.leaf 0)) (k / 2)).getD 0))
            | none => if mn < x then some mn else none := by
  conv_lhs => unfold recPredecessor
  rw [dif_neg hk]

/-- Correctness of the summary-directed part of the predecessor walk: when
`x`'s own child stores nothing below `x`'s low bits, the predecessor is the
max of the previous non-empty child, or the cached min (stored in no child). -/
theorem pred_via_summary {k mn x : Nat} {summ : VTree} {cs : List VTree}
    (hk : 4 < k)
    (hlen : cs.length = 2 ^ ((k + 1) / 2))
    (hch : ∀ c ∈ cs, Inv c (k / 2))
    (hsummEq : treeElems summ ((k + 1) / 2) =
      (Finset.range (2 ^ ((k + 1) / 2))).filter
        (fun h => (treeElems (cs.getD h (.leaf 0)) (k / 2)).Nonempty))
    (hminlt : ∀ y ∈ childElems cs k, mn < y)
    (hx : x < 2 ^ k)
    (hnl : ∀ l', l' ∈ treeElems (cs.getD (highPart k x) (.leaf 0)) (k / 2) →
      lowPart k x ≤ l')
    (hss : isGreatestBelow (treeElems summ ((k + 1) / 2)) (highPart k x)
      (recPredecessor (highPart k x) summ ((k + 1) / 2))) :
    isGreatestBelow (insert mn (childElems cs k)) x
      (match recPredecessor (highPart k x) summ ((k + 1) / 2) with
       | some h2 => some (combine k h2 ((treeMax (cs.getD h2 (.leaf 0)) (k / 2)).getD 0))
       | none => if mn < x then some mn else none) := by
  have hxeq : combine k (highPart k x) (lowPart k x) = x := combine_highPart_lowPart k x
  cases hrs : recPredecessor (highPart k x) summ ((k + 1) / 2) with
  | some h2 =>
    show isGreatestBelow (insert mn (childElems cs k)) x
      (some (combine k h2 ((treeMax (cs.getD h2 (.leaf 0)) (k / 2)).getD 0)))
    rw [hrs] at hss
    obtain ⟨hmem2, hlt2, hgreat2⟩ := hss
    obtain ⟨hh2, hne2⟩ := (summ_mem_iff hsummEq).mp hmem2
    have hmaxspec := treeMax_spec (child_inv hlen hch hh2)
    cases hm : treeMax (cs.getD h2 (.leaf 0)) (k / 2) with
    | none =>
      rw [hm] at hmaxspec
      simp only [isMaxOf] at hmaxspec
      rw [hmaxspec] at hne2
      exact absurd hne2 (by simp)
    | some m1 =>
      rw [hm] at hmaxspec
      obtain ⟨hm1mem, hm1max⟩ := hmaxspec
      have hm1lt : m1 < 2 ^ (k / 2) :=
        Finset.mem_range.mp (elems_subset_range (child_inv hlen hch hh2) hm1mem)
      simp only [Option.getD_some]
      have hrmem : combine k h2 m1 ∈ childElems cs k := combine_mem_childElems hh2 hm1mem
      refine ⟨Finset.mem_insert_of_mem hrmem, ?_, ?_⟩
      · calc combine k h2 m1 < combine k (highPart k x) (lowPart k x) :=
            combine_lt_combine_of_high_lt k _ _ hlt2 hm1lt
          _ = x := hxeq
      · intro y hy hxy
        rcases Finset.mem_insert.mp hy with rfl | hy
        · exact Nat.le_of_lt (hminlt _ hrmem)
        · obtain ⟨hhy, hly⟩ := (mem_childElems_iff hlen hch).mp hy
          have hyeq : combine k (highPart k y) (lowPart k y) = y := combine_highPart_lowPart k y
          have hxy' : combine k (highPart k y) (lowPart k y) <
              combine k (highPart k x) (lowPart k x) := by rw [hxeq, hyeq]; exact hxy
          rcases (combine_lt_combine_iff k (lowPart_lt _ _) (lowPart_lt _ _)).mp hxy'
            with hc | ⟨hc, hc2⟩
          · have hys : highPart k y ∈ treeElems summ ((k + 1) / 2) :=
              (summ_mem_iff hsummEq).mpr ⟨hhy, ⟨_, hly⟩⟩
            have hle := hgreat2 _ hys hc
            rcases Nat.eq_or_lt_of_le hle with heq | hlt
            · rw [heq] at hly
              have := hm1max _ hly
              calc y = combine k (highPart k y) (lowPart k y) := hyeq.symm
                _ ≤ combine k (highPart k y) m1 := combine_le_combine_right _ this
                _ = combine k h2 m1 := by rw [heq]
            · have hcl : combine k (highPart k y) (lowPart k y) < combine k h2 m1 :=
                combine_lt_combine_of_high_lt k _ _ hlt (lowPart_lt _ _)
              omega
          · rw [hc] at hly
            have := hnl _ hly
            omega
  | none =>
    show isGreatestBelow (insert mn (childElems cs k)) x (if mn < x then some mn else none)
    rw [hrs] at hss
    have hnochild : ∀ y ∈ childElems cs k, ¬ y < x := by
      intro y hy hylt
      obtain ⟨hhy, hly⟩ := (mem_childElems_iff hlen hch).mp hy
      have hys : highPart k y ∈ treeElems summ ((k + 1) / 2) :=
        (summ_mem_iff hsummEq).mpr ⟨hhy, ⟨_, hly⟩⟩
      have hge := hss _ hys
      have hyeq : combine k (highPart k y) (lowPart k y) = y := combine_highPart_lowPart k y
      have hylt' : combine k (highPart k y) (lowPart k y) <
          combine k (highPart k x) (lowPart k x) := by rw [hxeq, hyeq]; exact hylt
      rcases (combine_lt_combine_iff k (lowPart_lt _ _) (lowPart_lt _ _)).mp hylt'
        with hc | ⟨hc, hc2⟩
      · omega
      · rw [hc] at hly
        have := hnl _ hly
        omega
    by_cases hmnx : mn < x
    · rw [if_pos hmnx]
      refine ⟨Finset.mem_insert_self _ _, hmnx, ?_⟩
      intro y hy hxy
      rcases Finset.mem_insert.mp hy with rfl | hy
      · exact Nat.le_refl _
      · exact absurd hxy (hnochild y hy)
    · rw [if_neg hmnx]
      intro y hy
      rcases Finset.mem_insert.mp hy with rfl | hy
      · omega
      · by_contra hcon
        exact hnochild y hy (by omega)

theorem recPredecessor_spec {t : VTree} {k : Nat} (hinv : Inv t k) :
    ∀ x, x < 2 ^ k → isGreatestBelow (treeElems t k) x (recPredecessor x t k) := by
  induction hinv with
  | @leaf kk bits hk hb =>
    intro x hx
    rw [recPredecessor_leaf hk]
    cases hx0 : x with
    | zero =>
      rw [show scanDown bits (0 - 1) 0 = none from rfl]
      intro y hy
      omega
    | succ x' =>
      obtain ⟨hsome, hnone⟩ := @scanDown_full_spec bits x'
      have hidx : x' + 1 - 1 = x' := by omega
      rw [hidx]
      cases hscan : scanDown bits x' (x' + 1) with
      | none =>
        have hall := hnone hscan
        intro y hy
        rw [mem_treeElems_leaf hk] at hy
        by_contra hcon
        rw [hall y (by omega)] at hy
        simp at hy
      | some m =>
        obtain ⟨h1, h2, h3⟩ := hsome m hscan
        refine ⟨(mem_treeElems_leaf hk).mpr ⟨by omega, h2⟩, by omega, ?_⟩
        intro y hy hxy
        rw [mem_treeElems_leaf hk] at hy
        by_contra hcon
        rw [h3 y (by omega) (by omega)] at hy
        simp at hy
  | emptyNode hk hlen hsumm hch hse hce =>
    intro x hx
    rw [recPredecessor_node (by omega), if_pos rfl, treeElems_node (by omega), if_pos rfl]
    simp [isGreatestBelow]
  | @fullNode k mn mx summ cs hk hlen hsumm hch hsummEq hmn hmx hminlt hmaxE hmaxNE ihsumm ihch =>
    intro x hx
    rw [recPredecessor_node (by omega), if_neg Bool.false_ne_true, treeElems_node (by omega),
      if_neg Bool.false_ne_true]
    have hxeq : combine k (highPart k x) (lowPart k x) = x := combine_highPart_lowPart k x
    have hhx : highPart k x < 2 ^ ((k + 1) / 2) := highPart_lt _ _ hx
    by_cases hxmx : mx < x
    · rw [if_pos hxmx]
      refine ⟨mx_mem_full hmaxE hmaxNE, hxmx, ?_⟩
      intro y hy hxy
      rcases Finset.mem_insert.mp hy with rfl | hy
      · rcases Finset.eq_empty_or_nonempty (childElems cs k) with hemp | hne
        · rw [hmaxE hemp]
        · exact Nat.le_of_lt (hminlt mx (hmaxNE hne).1)
      · rcases Finset.eq_empty_or_nonempty (childElems cs k) with hemp | hne
        · rw [hemp] at hy
          simp at hy
        · exact (hmaxNE hne).2 y hy
    · rw [if_neg hxmx]
      have hss := ihsumm (highPart k x) hhx
      have hcmin := treeMin_spec (child_inv hlen hch hhx)
      cases hmt : treeMin (cs.getD (highPart k x) (.leaf 0)) (k / 2) with
      | none =>
        show isGreatestBelow (insert mn (childElems cs k)) x
          (match recPredecessor (highPart k x) summ ((k + 1) / 2) with
           | some h2 => some (combine k h2 ((treeMax (cs.getD h2 (.leaf 0)) (k / 2)).getD 0))
           | none => if mn < x then some mn else none)
        rw [hmt] at hcmin
        simp only [isMinOf] at hcmin
        exact pred_via_summary hk hlen hch hsummEq hminlt hx
          (fun l' hl' => by rw [hcmin] at hl'; exact absurd hl' (by simp)) hss
      | some cm =>
        show isGreatestBelow (insert mn (childElems cs k)) x
          (if cm < lowPart k x then
            (recPredecessor (lowPart k x) (cs.getD (highPart k x) (.leaf 0)) (k / 2)).map
              (combine k (highPart k x))
          else
            match recPredecessor (highPart k x) summ ((k + 1) / 2) with
            | some h2 => some (combine k h2 ((treeMax (cs.getD h2 (.leaf 0)) (k / 2)).getD 0))
            | none => if mn < x then some mn else none)
        rw [hmt] at hcmin
        obtain ⟨hcmmem, hcmmin⟩ := hcmin
        by_cases hcl : cm < lowPart k x
        · rw [if_pos hcl]
          have hcs := ihch (cs.getD (highPart k x) (.leaf 0))
            (getD_mem (by rw [hlen]; exact hhx)) (lowPart k x) (lowPart_lt _ _)
          cases hrc : recPredecessor (lowPart k x) (cs.getD (highPart k x) (.leaf 0)) (k / 2) with
          | none =>
            rw [hrc] at hcs
            have := hcs cm hcmmem
            omega
          | some p =>
            rw [hrc] at hcs
            obtain ⟨hpmem, hplt, hpgreat⟩ := hcs
            have hpb : p < 2 ^ (k / 2) :=
              Finset.mem_range.mp (elems_subset_range (child_inv hlen hch hhx) hpmem)
            simp only [Option.map_some']
            have hrmem : combine k (highPart k x) p ∈ childElems cs k :=
              combine_mem_childElems hhx hpmem
            refine ⟨Finset.mem_insert_of_mem hrmem, ?_, ?_⟩
            · have hstep : combine k (highPart k x) p <
                  combine k (highPart k x) (lowPart k x) := by
                rw [combine, combine]
                omega
              omega
            · intro y hy hxy
              rcases Finset.mem_insert.mp hy with rfl | hy
              · exact Nat.le_of_lt (hminlt _ hrmem)
              · obtain ⟨hhy, hly⟩ := (mem_childElems_iff hlen hch).mp hy
                have hyeq : combine k (highPart k y) (lowPart k y) = y :=
                  combine_highPart_lowPart k y
                have hxy' : combine k (highPart k y) (lowPart k y) <
                    combine k (highPart k x) (lowPart k x) := by rw [hxeq, hyeq]; exact hxy
                rcases (combine_lt_combine_iff k (lowPart_lt _ _) (lowPart_lt _ _)).mp hxy'
                  with hc | ⟨hc, hc2⟩
                · have hcl2 : combine k (highPart k y) (lowPart k y) <
                      combine k (highPart k x) p :=
                    combine_lt_combine_of_high_lt k _ _ hc (lowPart_lt _ _)
                  omega
                · rw [hc] at hly
                  have := hpgreat _ hly hc2
                  calc y = combine k (highPart k y) (lowPart k y) := hyeq.symm
                    _ ≤ combine k (highPart k y) p := combine_le_combine_right _ this
                    _ = combine k (highPart k x) p := by rw [hc]
        · rw [if_neg hcl]
          exact pred_via_summary hk hlen hch hsummEq hminlt hx
            (fun l' hl' => by have := hcmmin l' hl'; omega) hss

theorem getD_of_ge {cs : List VTree} {i : Nat} {d : VTree} (h : cs.length ≤ i) :
    cs.getD i d = d := by
  induction cs generalizing i with
  | nil => simp [List.getD]
  | cons a l ih =>
    cases i with
    | zero => simp at h
    | succ i => exact ih (by simpa using h)

theorem treeElems_leaf_high {k : Nat} (hk : ¬ k ≤ 4) (bits : Nat) :
    treeElems (.leaf bits) k = ∅ := by
  unfold treeElems
  rw [dif_neg hk]

theorem treeElems_leaf_zero (k : Nat) : treeElems (.leaf 0) k = ∅ := by
  by_cases hk : k ≤ 4
  · rw [treeElems_leaf hk]
    simp
  · exact treeElems_leaf_high hk 0

theorem childElems_eq_empty {k : Nat} {cs : List VTree}
    (hce : ∀ c ∈ cs, treeElems c (k / 2) = ∅) : childElems cs k = ∅ := by
  rw [Finset.eq_empty_iff_forall_not_mem]
  intro y hy
  rcases mem_childElems.mp hy with ⟨h, hh, l, hl, rfl⟩
  by_cases hlt : h < cs.length
  · rw [hce _ (getD_mem hlt)] at hl
    simp at hl
  · rw [getD_of_ge (by omega), treeElems_leaf_zero] at hl
    simp at hl

/-- Membership in the recombined child values, assuming only that every child
slot holds values inside its universe (holds for the original and for any
slot-updated child list). -/
theorem mem_childElems_iff_of_bounded {k : Nat} {cs : List VTree}
    (hb : ∀ h, h < 2 ^ ((k + 1) / 2) →
      treeElems (cs.getD h (.leaf 0)) (k / 2) ⊆ Finset.range (2 ^ (k / 2))) {y : Nat} :
    y ∈ childElems cs k ↔ highPart k y < 2 ^ ((k + 1) / 2) ∧
      lowPart k y ∈ treeElems (cs.getD (highPart k y) (.leaf 0)) (k / 2) := by
  constructor
  · intro hy
    rcases mem_childElems.mp hy with ⟨h, hh, l, hl, rfl⟩
    have hlb : l < 2 ^ (k / 2) := Finset.mem_range.mp (hb h hh hl)
    rw [highPart_combine _ _ _ hlb, lowPart_combine _ _ _ hlb]
    exact ⟨hh, hl⟩
  · rintro ⟨hh, hl⟩
    have := combine_mem_childElems hh hl
    rwa [combine_highPart_lowPart] at this

theorem mn_le_mx_full {k mn mx : Nat} {cs : List VTree}
    (hminlt : ∀ y ∈ childElems cs k, mn < y)
    (hmaxE : childElems cs k = ∅ → mx = mn)
    (hmaxNE : (childElems cs k).Nonempty →
      mx ∈ childElems cs k ∧ ∀ y ∈ childElems cs k, y ≤ mx) : mn ≤ mx := by
  rcases Finset.eq_empty_or_nonempty (childElems cs k) with hemp | hne
  · exact Nat.le_of_eq (hmaxE hemp).symm
  · exact Nat.le_of_lt (hminlt mx (hmaxNE hne).1)

theorem childElems_set_mem {k : Nat} {cs : List VTree} (hlen : cs.length = 2 ^ ((k + 1) / 2))
    (hch : ∀ c ∈ cs, Inv c (k / 2)) {h0 : Nat} (hh0 : h0 < 2 ^ ((k + 1) / 2)) {c' : VTree}
    (hb' : treeElems c' (k / 2) ⊆ Finset.range (2 ^ (k / 2))) {y : Nat} :
    y ∈ childElems (cs.set h0 c') k ↔
      highPart k y < 2 ^ ((k + 1) / 2) ∧
        (if highPart k y = h0 then lowPart k y ∈ treeElems c' (k / 2)
         else lowPart k y ∈ treeElems (cs.getD (highPart k y) (.leaf 0)) (k / 2)) := by
  have hb : ∀ h, h < 2 ^ ((k + 1) / 2) →
      treeElems ((cs.set h0 c').getD h (.leaf 0)) (k / 2) ⊆ Finset.range (2 ^ (k / 2)) := by
    intro h hh
    by_cases heq : h0 = h
    · subst heq
      rw [getD_set_self (by rw [hlen]; exact hh0)]
      exact hb'
    · rw [getD_set_ne heq]
      exact elems_subset_range (child_inv hlen hch hh)
  rw [mem_childElems_iff_of_bounded hb]
  by_cases hhy : highPart k y = h0
  · rw [if_pos hhy, hhy, getD_set_self (by rw [hlen]; exact hh0)]
  · rw [if_neg hhy, getD_set_ne (fun heq => hhy heq.symm)]

theorem childElems_set_insert {k v : Nat} {cs : List VTree}
    (hlen : cs.length = 2 ^ ((k + 1) / 2)) (hch : ∀ c ∈ cs, Inv c (k / 2))
    (hv : v < 2 ^ k) {c' : VTree}
    (helems : treeElems c' (k / 2) =
      insert (lowPart k v) (treeElems (cs.getD (highPart k v) (.leaf 0)) (k / 2))) :
    childElems (cs.set (highPart k v) c') k = insert v (childElems cs k) := by
  have hh0 : highPart k v < 2 ^ ((k + 1) / 2) := highPart_lt _ _ hv
  have hb' : treeElems c' (k / 2) ⊆ Finset.range (2 ^ (k / 2)) := by
    rw [helems]
    intro l hl
    rcases Finset.mem_insert.mp hl with rfl | hl
    · exact Finset.mem_range.mpr (lowPart_lt _ _)
    · exact elems_subset_range (child_inv hlen hch hh0) hl
  have hveq : combine k (highPart k v) (lowPart k v) = v := combine_highPart_lowPart k v
  ext y
  have hyeq : combine k (highPart k y) (lowPart k y) = y := combine_highPart_lowPart k y
  rw [childElems_set_mem hlen hch hh0 hb', Finset.mem_insert,
    mem_childElems_iff hlen hch]
  by_cases hhy : highPart k y = highPart k v
  · rw [if_pos hhy, helems, Finset.mem_insert]
    constructor
    · rintro ⟨hylt, heq | hmem⟩
      · left
        rw [← hyeq, hhy, heq, hveq]
      · right
        exact ⟨hylt, by rw [hhy]; exact hmem⟩
    · rintro (rfl | ⟨hylt, hmem⟩)
      · exact ⟨hh0, Or.inl rfl⟩
      · exact ⟨hylt, Or.inr (by rw [← hhy]; exact hmem)⟩
  · rw [if_neg hhy]
    constructor
    · rintro ⟨hylt, hmem⟩
      exact Or.inr ⟨hylt, hmem⟩
    · rintro (rfl | ⟨hylt, hmem⟩)
      · exact absurd rfl hhy
      · exact ⟨hylt, hmem⟩

theorem summEq_set_of_nonempty {k h0 : Nat} {summ c' : VTree} {cs : List VTree}
    (hlen : cs.length = 2 ^ ((k + 1) / 2))
    (hsummEq : treeElems summ ((k + 1) / 2) =
      (Finset.range (2 ^ ((k + 1) / 2))).filter
        (fun h => (treeElems (cs.getD h (.leaf 0)) (k / 2)).Nonempty))
    (hh0 : h0 < 2 ^ ((k + 1) / 2))
    (hold : (treeElems (cs.getD h0 (.leaf 0)) (k / 2)).Nonempty)
    (hne' : (treeElems c' (k / 2)).Nonempty) :
    treeElems summ ((k + 1) / 2) =
      (Finset.range (2 ^ ((k + 1) / 2))).filter
        (fun h => (treeElems ((cs.set h0 c').getD h (.leaf 0)) (k / 2)).Nonempty) := by
  rw [hsummEq]
  ext h
  simp only [Finset.mem_filter, Finset.mem_range]
  by_cases heq : h0 = h
  · subst heq
    rw [getD_set_self (by rw [hlen]; exact hh0)]
    exact iff_of_true ⟨hh0, hold⟩ ⟨hh0, hne'⟩
  · rw [getD_set_ne heq]

theorem summEq_insert_of_empty {k h0 : Nat} {summ summ2 c' : VTree} {cs : List VTree}
    (hlen : cs.length = 2 ^ ((k + 1) / 2))
    (hsummEq : treeElems summ ((k + 1) / 2) =
      (Finset.range (2 ^ ((k + 1) / 2))).filter
        (fun h => (treeElems (cs.getD h (.leaf 0)) (k / 2)).Nonempty))
    (hh0 : h0 < 2 ^ ((k + 1) / 2))
    (hs2 : treeElems summ2 ((k + 1) / 2) = insert h0 (treeElems summ ((k + 1) / 2)))
    (hne' : (treeElems c' (k / 2)).Nonempty) :
    treeElems summ2 ((k + 1) / 2) =
      (Finset.range (2 ^ ((k + 1) / 2))).filter
        (fun h => (treeElems ((cs.set h0 c').getD h (.leaf 0)) (k / 2)).Nonempty) := by
  rw [hs2, hsummEq]
  ext h
  simp only [Finset.mem_insert, Finset.mem_filter, Finset.mem_range]
  by_cases heq : h0 = h
  · subst heq
    rw [getD_set_self (by rw [hlen]; exact hh0)]
    exact iff_of_true (Or.inl rfl) ⟨hh0, hne'⟩
  · rw [getD_set_ne heq]
    constructor
    · rintro (rfl | hr)
      · exact absurd rfl heq
      · exact hr
    · intro hr
      exact Or.inr hr

theorem recInsertElement_leaf {k : Nat} (hk : k ≤ 4) (x bits : Nat) :
    recInsertElement x (.leaf bits) k =
      if bits.testBit x then (false, .leaf bits) else (true, .leaf (bits ||| 2 ^ x)) := by
  unfold recInsertElement
  rw [dif_pos hk]

theorem recInsertElement_node {k : Nat} (hk : ¬ k ≤ 4) (x : Nat) (e : Bool) (mn mx : Nat)
    (summ : VTree) (cs : List VTree) :
    recInsertElement x (.node e mn mx summ cs) k =
      if e then (true, .node false x x summ cs)
      else if x = mn ∨ x = mx then (false, .node e mn mx summ cs)
      else
        ((recInsertElement (lowPart k (if x < mn then mn else x))
            (cs.getD (highPart k (if x < mn then mn else x)) (.leaf 0)) (k / 2)).1,
          .node false (if x < mn then x else mn) (if mx < x then x else mx)
            (if isTreeEmpty (cs.getD (highPart k (if x < mn then mn else x)) (.leaf 0)) (k / 2)
              then (recInsertElement (highPart k (if x < mn then mn else x)) summ
                ((k + 1) / 2)).2
              else summ)
            (cs.set (highPart k (if x < mn then mn else x))
              (recInsertElement (lowPart k (if x < mn then mn else x))
                (cs.getD (highPart k (if x < mn then mn else x)) (.leaf 0)) (k / 2)).2)) := by
  conv_lhs => unfold recInsertElement
  rw [dif_neg hk]

theorem recInsertElement_spec {t : VTree} {k : Nat} (hinv : Inv t k) :
    ∀ x, x < 2 ^ k → ∀ b t', recInsertElement x t k = (b, t') →
      Inv t' k ∧ treeElems t' k = insert x (treeElems t k) ∧
        (b = true ↔ x ∉ treeElems t k) := by
  induction hinv with
  | @leaf kk bits hk hb =>
    intro x hx b t' heq
    rw [recInsertElement_leaf hk] at heq
    by_cases hbit : bits.testBit x
    · rw [if_pos hbit] at heq
      injection heq with h1 h2
      subst h1
      subst h2
      have hxmem : x ∈ treeElems (.leaf bits) kk := (mem_treeElems_leaf hk).mpr ⟨hx, hbit⟩
      exact ⟨Inv.leaf hk hb, (Finset.insert_eq_self.mpr hxmem).symm,
        iff_of_false Bool.false_ne_true (not_not_intro hxmem)⟩
    · rw [if_neg hbit] at heq
      injection heq with h1 h2
      subst h1
      subst h2
      refine ⟨?_, ?_, ?_⟩
      · refine Inv.leaf hk (Nat.or_lt_two_pow hb ?_)
        exact (Nat.pow_lt_pow_iff_right (by omega)).mpr hx
      · rw [treeElems_leaf hk, treeElems_leaf hk]
        ext i
        simp only [Finset.mem_insert, Finset.mem_filter, Finset.mem_range, Nat.testBit_or,
          Nat.testBit_two_pow, Bool.or_eq_true, decide_eq_true_eq]
        constructor
        · rintro ⟨hi, hb1 | hxi⟩
          · exact Or.inr ⟨hi, hb1⟩
          · left
            omega
        · rintro (rfl | ⟨hi, hb1⟩)
          · exact ⟨hx, Or.inr rfl⟩
          · exact ⟨hi, Or.inl hb1⟩
      · exact iff_of_true rfl (fun hmem => hbit ((mem_treeElems_leaf hk).mp hmem).2)
  | @emptyNode kk mn mx summ cs hk hlen hsumm hch hse hce ihsumm ihch =>
    intro x hx b t' heq
    rw [recInsertElement_node (by omega), if_pos rfl] at heq
    injection heq with h1 h2
    subst h1
    subst h2
    have hceE : childElems cs kk = ∅ := childElems_eq_empty hce
    refine ⟨?_, ?_, ?_⟩
    · refine Inv.fullNode hk hlen hsumm hch ?_ hx hx ?_ (fun _ => rfl) ?_
      · rw [hse]
        symm
        rw [Finset.filter_eq_empty_iff]
        intro h hh
        rw [hce _ (getD_mem (by rw [hlen]; exact Finset.mem_range.mp hh))]
        simp
      · rw [hceE]
        intro y hy
        simp at hy
      · rw [hceE]
        intro hne
        exact absurd hne (by simp)
    · rw [treeElems_node (by omega), if_neg Bool.false_ne_true, hceE,
        treeElems_node (by omega), if_pos rfl]
    · rw [treeElems_node (by omega), if_pos rfl]
      exact iff_of_true rfl (by simp)
  | @fullNode kk mn mx summ cs hk hlen hsumm hch hsummEq hmn hmx hminlt hmaxE hmaxNE ihsumm ihch =>
    intro x hx b t' heq
    rw [recInsertElement_node (by omega), if_neg Bool.false_ne_true] at heq
    rw [treeElems_node (show ¬ kk ≤ 4 by omega), if_neg Bool.false_ne_true]
    by_cases hmm : x = mn ∨ x = mx
    · rw [if_pos hmm] at heq
      injection heq with h1 h2
      subst h1
      subst h2
      have hxmem : x ∈ insert mn (childElems cs kk) := by
        rcases hmm with rfl | rfl
        · exact Finset.mem_insert_self _ _
        · exact mx_mem_full hmaxE hmaxNE
      refine ⟨Inv.fullNode hk hlen hsumm hch hsummEq hmn hmx hminlt hmaxE hmaxNE, ?_, ?_⟩
      · rw [treeElems_node (show ¬ kk ≤ 4 by omega), if_neg Bool.false_ne_true]
        exact (Finset.insert_eq_self.mpr hxmem).symm
      · exact iff_of_false Bool.false_ne_true (not_not_intro hxmem)
    · rw [if_neg hmm] at heq
      push_neg at hmm
      have hmnmx : mn ≤ mx := mn_le_mx_full hminlt hmaxE hmaxNE
      set v := if x < mn then mn else x with hvdef
      set mn2 := if x < mn then x else mn with hmn2def
      set mx2 := if mx < x then x else mx with hmx2def
      have hvlt : v < 2 ^ kk := by
        rw [hvdef]
        split <;> omega
      have hmn2lt : mn2 < 2 ^ kk := by
        rw [hmn2def]
        split <;> omega
      have hmx2lt : mx2 < 2 ^ kk := by
        rw [hmx2def]
        split <;> omega
      have hhv : highPart kk v < 2 ^ ((kk + 1) / 2) := highPart_lt _ _ hvlt
      have hcmem : cs.getD (highPart kk v) (.leaf 0) ∈ cs :=
        getD_mem (by rw [hlen]; exact hhv)
      have hcinv : Inv (cs.getD (highPart kk v) (.leaf 0)) (kk / 2) := hch _ hcmem
      obtain ⟨hcInv2, hcElems, hcFlag⟩ :=
        ihch (cs.getD (highPart kk v) (.leaf 0)) hcmem (lowPart kk v) (lowPart_lt _ _)
          (recInsertElement (lowPart kk v) (cs.getD (highPart kk v) (.leaf 0)) (kk / 2)).1
          (recInsertElement (lowPart kk v) (cs.getD (highPart kk v) (.leaf 0)) (kk / 2)).2 rfl
      have hCS : childElems
          (cs.set (highPart kk v)
            (recInsertElement (lowPart kk v) (cs.getD (highPart kk v) (.leaf 0)) (kk / 2)).2)
          kk = insert v (childElems cs kk) :=
        childElems_set_insert hlen hch hvlt hcElems
      have hrne : (treeElems
          (recInsertElement (lowPart kk v) (cs.getD (highPart kk v) (.leaf 0)) (kk / 2)).2
          (kk / 2)).Nonempty := by
        rw [hcElems]
        exact Finset.insert_nonempty _ _
      have hswap : insert mn2 (insert v (childElems cs kk)) =
          insert x (insert mn (childElems cs kk)) := by
        by_cases hxmn : x < mn
        · rw [hmn2def, hvdef, if_pos hxmn, if_pos hxmn]
        · rw [hmn2def, hvdef, if_neg hxmn, if_neg hxmn, Finset.Insert.comm]
      have hmn2v : mn2 < v := by
        rw [hmn2def, hvdef]
        by_cases hxmn : x < mn
        · rw [if_pos hxmn, if_pos hxmn]
          exact hxmn
        · rw [if_neg hxmn, if_neg hxmn]
          omega
      have hmn2mn : mn2 ≤ mn := by
        rw [hmn2def]
        split <;> omega
      by_cases hcE : isTreeEmpty (cs.getD (highPart kk v) (.leaf 0)) (kk / 2)
      · rw [if_pos hcE] at heq
        injection heq with h1 h2
        subst h1
        subst h2
        have hcempty : treeElems (cs.getD (highPart kk v) (.leaf 0)) (kk / 2) = ∅ :=
          (isTreeEmpty_iff hcinv).mp hcE
        obtain ⟨hsInv2, hsElems, _⟩ :=
          ihsumm (highPart kk v) hhv
            (recInsertElement (highPart kk v) summ ((kk + 1) / 2)).1
            (recInsertElement (highPart kk v) summ ((kk + 1) / 2)).2 rfl
        refine ⟨?_, ?_, ?_⟩
        · refine Inv.fullNode hk (by rw [List.length_set, hlen]) hsInv2 ?_
            (summEq_insert_of_empty hlen hsummEq hhv hsElems hrne) hmn2lt hmx2lt ?_ ?_ ?_
          · intro c2 hc2
            rcases mem_of_mem_set hc2 with rfl | hc2
            · exact hcInv2
            · exact hch _ hc2
          · rw [hCS]
            intro y hy
            rcases Finset.mem_insert.mp hy with rfl | hy
            · exact hmn2v
            · exact Nat.lt_of_le_of_lt hmn2mn (hminlt y hy)
          · rw [hCS]
            intro hemp
            exact absurd hemp (Finset.insert_ne_empty _ _)
          · rw [hCS]
            intro _
            constructor
            · by_cases hmxx : mx < x
              · have hveq : v = x := by
                  rw [hvdef, if_neg (by omega)]
                have hmx2eq : mx2 = x := by
                  rw [hmx2def, if_pos hmxx]
                rw [hmx2eq, ← hveq]
                exact Finset.mem_insert_self _ _
              · have hmx2eq : mx2 = mx := by
                  rw [hmx2def, if_neg hmxx]
                rcases Finset.eq_empty_or_nonempty (childElems cs kk) with hemp | hne
                · have hmxmn : mx = mn := hmaxE hemp
                  have hveq : v = mn := by
                    rw [hvdef]
                    by_cases hxmn : x < mn
                    · rw [if_pos hxmn]
                    · exact absurd (by omega : x = mn) hmm.1
                  rw [hmx2eq, hmxmn, ← hveq]
                  exact Finset.mem_insert_self _ _
                · rw [hmx2eq]
                  exact Finset.mem_insert_of_mem (hmaxNE hne).1
            · intro y hy
              rcases Finset.mem_insert.mp hy with rfl | hy
              · rw [hvdef, hmx2def]
                by_cases hxmn : x < mn
                · rw [if_pos hxmn]
                  split <;> omega
                · rw [if_neg hxmn]
                  split <;> omega
              · have := (fun hne => (hmaxNE hne).2 y hy) ⟨y, hy⟩
                rw [hmx2def]
                split <;> omega
        · rw [treeElems_node (show ¬ kk ≤ 4 by omega), if_neg Bool.false_ne_true, hCS, hswap]
        · rw [hcFlag, hcempty]
          simp only [Finset.not_mem_empty, not_false_iff, true_iff]
          intro hxS
          rcases Finset.mem_insert.mp hxS with rfl | hxCE
          · exact hmm.1 rfl
          · have hlow := ((mem_childElems_iff hlen hch).mp hxCE).2
            by_cases hxmn : x < mn
            · exact absurd hxCE (by intro h; have := hminlt x h; omega)
            · have hveq : v = x := by rw [hvdef, if_neg hxmn]
              rw [hveq] at hcempty
              rw [hcempty] at hlow
              simp at hlow
      · rw [if_neg hcE] at heq
        injection heq with h1 h2
        subst h1
        subst h2
        have hcne : (treeElems (cs.getD (highPart kk v) (.leaf 0)) (kk / 2)).Nonempty := by
          rw [Finset.nonempty_iff_ne_empty]
          intro hemp
          exact hcE ((isTreeEmpty_iff hcinv).mpr hemp)
        refine ⟨?_, ?_, ?_⟩
        · refine Inv.fullNode hk (by rw [List.length_set, hlen]) hsumm ?_
            (summEq_set_of_nonempty hlen hsummEq hhv hcne hrne) hmn2lt hmx2lt ?_ ?_ ?_
          · intro c2 hc2
            rcases mem_of_mem_set hc2 with rfl | hc2
            · exact hcInv2
            · exact hch _ hc2
          · rw [hCS]
            intro y hy
            rcases Finset.mem_insert.mp hy with rfl | hy
            · exact hmn2v
            · exact Nat.lt_of_le_of_lt hmn2mn (hminlt y hy)
          · rw [hCS]
            intro hemp
            exact absurd hemp (Finset.insert_ne_empty _ _)
          · rw [hCS]
            intro _
            constructor
            · by_cases hmxx : mx < x
              · have hveq : v = x := by
                  rw [hvdef, if_neg (by omega)]
                have hmx2eq : mx2 = x := by
                  rw [hmx2def, if_pos hmxx]
                rw [hmx2eq, ← hveq]
                exact Finset.mem_insert_self _ _
              · have hmx2eq : mx2 = mx := by
                  rw [hmx2def, if_neg hmxx]
                rcases Finset.eq_empty_or_nonempty (childElems cs kk) with hemp | hne
                · have hmxmn : mx = mn := hmaxE hemp
                  have hveq : v = mn := by
                    rw [hvdef]
                    by_cases hxmn : x < mn
                    · rw [if_pos hxmn]
                    · exact absurd (by omega : x = mn) hmm.1
                  rw [hmx2eq, hmxmn, ← hveq]
                  exact Finset.mem_insert_self _ _
                · rw [hmx2eq]
                  exact Finset.mem_insert_of_mem (hmaxNE hne).1
            · intro y hy
              rcases Finset.mem_insert.mp hy with rfl | hy
              · rw [hvdef, hmx2def]
                by_cases hxmn : x < mn
                · rw [if_pos hxmn]
                  split <;> omega
                · rw [if_neg hxmn]
                  split <;> omega
              · have := (fun hne => (hmaxNE hne).2 y hy) ⟨y, hy⟩
                rw [hmx2def]
                split <;> omega
        · rw [treeElems_node (show ¬ kk ≤ 4 by omega), if_neg Bool.false_ne_true, hCS, hswap]
        · rw [hcFlag]
          by_cases hxmn : x < mn
          · have hveq : v = mn := by rw [hvdef, if_pos hxmn]
            have hmnnotin : lowPart kk v ∉
                treeElems (cs.getD (highPart kk v) (.leaf 0)) (kk / 2) := by
              intro hmem
              have : v ∈ childElems cs kk :=
                (mem_childElems_iff hlen hch).mpr ⟨hhv, hmem⟩
              have := hminlt v this
              omega
            refine iff_of_true hmnnotin ?_
            intro hxS
            rcases Finset.mem_insert.mp hxS with rfl | hxCE
            · exact hmm.1 rfl
            · have := hminlt x hxCE
              omega
          · have hveq : v = x := by rw [hvdef, if_neg hxmn]
            constructor
            · intro hnot hxS
              rcases Finset.mem_insert.mp hxS with rfl | hxCE
              · exact hmm.1 rfl
              · have := ((mem_childElems_iff hlen hch).mp hxCE).2
                rw [← hveq] at this
                exact hnot this
            · intro hnot hmem
              refine hnot (Finset.mem_insert_of_mem ?_)
              rw [hveq] at hmem
              exact (mem_childElems_iff hlen hch).mpr ⟨by rw [← hveq]; exact hhv, hmem⟩

theorem exists_getD_of_mem {cs : List VTree} {a d : VTree} (h : a ∈ cs) :
    ∃ i, i < cs.length ∧ cs.getD i d = a := by
  induction cs with
  | nil => simp at h
  | cons b l ih =>
    rcases List.mem_cons.mp h with rfl | h
    · exact ⟨0, by simp, rfl⟩
    · obtain ⟨i, hi, hg⟩ := ih h
      exact ⟨i + 1, by simpa using hi, hg⟩

theorem child_empty_of_childElems_empty {k : Nat} {cs : List VTree}
    (hemp : childElems cs k = ∅) {h : Nat} (hh : h < 2 ^ ((k + 1) / 2)) :
    treeElems (cs.getD h (.leaf 0)) (k / 2) = ∅ := by
  rw [Finset.eq_empty_iff_forall_not_mem]
  intro l hl
  have := combine_mem_childElems hh hl
  rw [hemp] at this
  simp at this

theorem childElems_set_erase {k h0 l0 : Nat} {cs : List VTree}
    (hlen : cs.length = 2 ^ ((k + 1) / 2)) (hch : ∀ c ∈ cs, Inv c (k / 2))
    (hh0 : h0 < 2 ^ ((k + 1) / 2)) (hl0 : l0 < 2 ^ (k / 2)) {c' : VTree}
    (helems : treeElems c' (k / 2) = (treeElems (cs.getD h0 (.leaf 0)) (k / 2)).erase l0) :
    childElems (cs.set h0 c') k = (childElems cs k).erase (combine k h0 l0) := by
  have hb' : treeElems c' (k / 2) ⊆ Finset.range (2 ^ (k / 2)) := by
    rw [helems]
    exact fun l hl =>
      elems_subset_range (child_inv hlen hch hh0) (Finset.mem_of_mem_erase hl)
  have hc0 : combine k h0 l0 < 2 ^ k := combine_lt _ _ _ hh0 hl0
  ext y
  have hyeq : combine k (highPart k y) (lowPart k y) = y := combine_highPart_lowPart k y
  rw [childElems_set_mem hlen hch hh0 hb', Finset.mem_erase,
    mem_childElems_iff hlen hch]
  by_cases hhy : highPart k y = h0
  · rw [if_pos hhy, helems, Finset.mem_erase]
    constructor
    · rintro ⟨hylt, hne, hmem⟩
      refine ⟨?_, hylt, by rw [hhy]; exact hmem⟩
      intro hcon
      rw [hcon, lowPart_combine _ _ _ hl0] at hne
      exact hne rfl
    · rintro ⟨hne, hylt, hmem⟩
      refine ⟨hylt, ?_, by rw [← hhy]; exact hmem⟩
      intro hcon
      apply hne
      rw [← hyeq, hhy, hcon]
  · rw [if_neg hhy]
    constructor
    · rintro ⟨hylt, hmem⟩
      refine ⟨?_, hylt, hmem⟩
      intro hcon
      rw [hcon, highPart_combine _ _ _ hl0] at hhy
      exact hhy rfl
    · rintro ⟨hne, hylt, hmem⟩
      exact ⟨hylt, hmem⟩

theorem summEq_erase_of_empty {k h0 : Nat} {summ summ2 c' : VTree} {cs : List VTree}
    (hlen : cs.length = 2 ^ ((k + 1) / 2))
    (hsummEq : treeElems summ ((k + 1) / 2) =
      (Finset.range (2 ^ ((k + 1) / 2))).filter
        (fun h => (treeElems (cs.getD h (.leaf 0)) (k / 2)).Nonempty))
    (hh0 : h0 < 2 ^ ((k + 1) / 2))
    (hs2 : treeElems summ2 ((k + 1) / 2) = (treeElems summ ((k + 1) / 2)).erase h0)
    (hc'emp : treeElems c' (k / 2) = ∅) :
    treeElems summ2 ((k + 1) / 2) =
      (Finset.range (2 ^ ((k + 1) / 2))).filter
        (fun h => (treeElems ((cs.set h0 c').getD h (.leaf 0)) (k / 2)).Nonempty) := by
  rw [hs2, hsummEq]
  ext h
  simp only [Finset.mem_erase, Finset.mem_filter, Finset.mem_range]
  by_cases heq : h0 = h
  · subst heq
    rw [getD_set_self (by rw [hlen]; exact hh0)]
    constructor
    · rintro ⟨hne, _⟩
      exact absurd rfl hne
    · rintro ⟨_, hne⟩
      rw [hc'emp] at hne
      exact absurd hne (by simp)
  · rw [getD_set_ne heq]
    constructor
    · rintro ⟨_, hr⟩
      exact hr
    · intro hr
      exact ⟨fun hcon => heq hcon.symm, hr⟩

theorem childElems_max_via_caches {k : Nat} {summ : VTree} {cs : List VTree}
    (hlen : cs.length = 2 ^ ((k + 1) / 2)) (hch : ∀ c ∈ cs, Inv c (k / 2))
    (hsummEq : treeElems summ ((k + 1) / 2) =
      (Finset.range (2 ^ ((k + 1) / 2))).filter
        (fun h => (treeElems (cs.getD h (.leaf 0)) (k / 2)).Nonempty))
    (hsummInv : Inv summ ((k + 1) / 2))
    (hne : (childElems cs k).Nonempty) :
    ∃ hM lM, treeMax summ ((k + 1) / 2) = some hM ∧
      treeMax (cs.getD hM (.leaf 0)) (k / 2) = some lM ∧
      combine k hM lM ∈ childElems cs k ∧
      ∀ y ∈ childElems cs k, y ≤ combine k hM lM := by
  obtain ⟨y0, hy0⟩ := hne
  obtain ⟨hhy0, hly0⟩ := (mem_childElems_iff hlen hch).mp hy0
  have hsumm_ne : (treeElems summ ((k + 1) / 2)).Nonempty :=
    ⟨highPart k y0, (summ_mem_iff hsummEq).mpr ⟨hhy0, ⟨_, hly0⟩⟩⟩
  have hsmax := treeMax_spec hsummInv
  cases hsm : treeMax summ ((k + 1) / 2) with
  | none =>
    rw [hsm] at hsmax
    simp only [isMaxOf] at hsmax
    rw [hsmax] at hsumm_ne
    exact absurd hsumm_ne (by simp)
  | some hM =>
    rw [hsm] at hsmax
    obtain ⟨hMmem, hMmax⟩ := hsmax
    obtain ⟨hhM, hcM_ne⟩ := (summ_mem_iff hsummEq).mp hMmem
    have hcmax := treeMax_spec (child_inv hlen hch hhM)
    cases hcm : treeMax (cs.getD hM (.leaf 0)) (k / 2) with
    | none =>
      rw [hcm] at hcmax
      simp only [isMaxOf] at hcmax
      rw [hcmax] at hcM_ne
      exact absurd hcM_ne (by simp)
    | some lM =>
      rw [hcm] at hcmax
      obtain ⟨hlMmem, hlMmax⟩ := hcmax
      have hlMlt : lM < 2 ^ (k / 2) :=
        Finset.mem_range.mp (elems_subset_range (child_inv hlen hch hhM) hlMmem)
      refine ⟨hM, lM, rfl, hcm, combine_mem_childElems hhM hlMmem, ?_⟩
      intro y hy
      obtain ⟨hhy, hly⟩ := (mem_childElems_iff hlen hch).mp hy
      have hyeq : combine k (highPart k y) (lowPart k y) = y := combine_highPart_lowPart k y
      have hys : highPart k y ∈ treeElems summ ((k + 1) / 2) :=
        (summ_mem_iff hsummEq).mpr ⟨hhy, ⟨_, hly⟩⟩
      have hle := hMmax _ hys
      rcases Nat.eq_or_lt_of_le hle with heq | hlt
      · rw [heq] at hly
        have := hlMmax _ hly
        calc y = combine k (highPart k y) (lowPart k y) := hyeq.symm
          _ ≤ combine k (highPart k y) lM := combine_le_combine_right _ this
          _ = combine k hM lM := by rw [heq]
      · have hcl : combine k (highPart k y) (lowPart k y) < combine k hM lM :=
          combine_lt_combine_of_high_lt k _ _ hlt (lowPart_lt _ _)
        omega

theorem childElems_min_via_caches {k : Nat} {summ : VTree} {cs : List VTree}
    (hlen : cs.length = 2 ^ ((k + 1) / 2)) (hch : ∀ c ∈ cs, Inv c (k / 2))
    (hsummEq : treeElems summ ((k + 1) / 2) =
      (Finset.range (2 ^ ((k + 1) / 2))).filter
        (fun h => (treeElems (cs.getD h (.leaf 0)) (k / 2)).Nonempty))
    (hsummInv : Inv summ ((k + 1) / 2))
    (hne : (childElems cs k).Nonempty) :
    ∃ hm lm, treeMin summ ((k + 1) / 2) = some hm ∧
      treeMin (cs.getD hm (.leaf 0)) (k / 2) = some lm ∧
      combine k hm lm ∈ childElems cs k ∧
      ∀ y ∈ childElems cs k, combine k hm lm ≤ y := by
  obtain ⟨y0, hy0⟩ := hne
  obtain ⟨hhy0, hly0⟩ := (mem_childElems_iff hlen hch).mp hy0
  have hsumm_ne : (treeElems summ ((k + 1) / 2)).Nonempty :=
    ⟨highPart k y0, (summ_mem_iff hsummEq).mpr ⟨hhy0, ⟨_, hly0⟩⟩⟩
  have hsmin := treeMin_spec hsummInv
  cases hsm : treeMin summ ((k + 1) / 2) with
  | none =>
    rw [hsm] at hsmin
    simp only [isMinOf] at hsmin
    rw [hsmin] at hsumm_ne
    exact absurd hsumm_ne (by simp)
  | some hm =>
    rw [hsm] at hsmin
    obtain ⟨hmmem, hmmin⟩ := hsmin
    obtain ⟨hhm, hcm_ne⟩ := (summ_mem_iff hsummEq).mp hmmem
    have hcmin := treeMin_spec (child_inv hlen hch hhm)
    cases hcm : treeMin (cs.getD hm (.leaf 0)) (k / 2) with
    | none =>
      rw [hcm] at hcmin
      simp only [isMinOf] at hcmin
      rw [hcmin] at hcm_ne
      exact absurd hcm_ne (by simp)
    | some lm =>
      rw [hcm] at hcmin
      obtain ⟨hlmmem, hlmmin⟩ := hcmin
      have hlmlt : lm < 2 ^ (k / 2) :=
        Finset.mem_range.mp (elems_subset_range (child_inv hlen hch hhm) hlmmem)
      refine ⟨hm, lm, rfl, hcm, combine_mem_childElems hhm hlmmem, ?_⟩
      intro y hy
      obtain ⟨hhy, hly⟩ := (mem_childElems_iff hlen hch).mp hy
      have hyeq : combine k (highPart k y) (lowPart k y) = y := combine_highPart_lowPart k y
      have hys : highPart k y ∈ treeElems summ ((k + 1) / 2) :=
        (summ_mem_iff hsummEq).mpr ⟨hhy, ⟨_, hly⟩⟩
      have hle := hmmin _ hys
      rcases Nat.eq_or_lt_of_le hle with heq | hlt
      · rw [← heq] at hly
        have := hlmmin _ hly
        calc combine k hm lm ≤ combine k hm (lowPart k y) := combine_le_combine_right _ this
          _ = combine k (highPart k y) (lowPart k y) := by rw [heq]
          _ = y := hyeq
      · have hcl : combine k hm lm < combine k (highPart k y) (lowPart k y) :=
          combine_lt_combine_of_high_lt k _ _ hlt hlmlt
        omega

theorem eraseMaxAux_spec {k mn : Nat} {summ2 : VTree} {cs2 : List VTree}
    (hlen : cs2.length = 2 ^ ((k + 1) / 2)) (hch : ∀ c ∈ cs2, Inv c (k / 2))
    (hsummEq : treeElems summ2 ((k + 1) / 2) =
      (Finset.range (2 ^ ((k + 1) / 2))).filter
        (fun h => (treeElems (cs2.getD h (.leaf 0)) (k / 2)).Nonempty))
    (hsummInv : Inv summ2 ((k + 1) / 2)) :
    (childElems cs2 k = ∅ → eraseMaxAux k mn summ2 cs2 = mn) ∧
    ((childElems cs2 k).Nonempty → eraseMaxAux k mn summ2 cs2 ∈ childElems cs2 k ∧
      ∀ y ∈ childElems cs2 k, y ≤ eraseMaxAux k mn summ2 cs2) := by
  constructor
  · intro hemp
    have hsE : treeElems summ2 ((k + 1) / 2) = ∅ := by
      rw [hsummEq, Finset.filter_eq_empty_iff]
      intro h hh
      rw [child_empty_of_childElems_empty hemp (Finset.mem_range.mp hh)]
      simp
    rw [eraseMaxAux, if_pos ((isTreeEmpty_iff hsummInv).mpr hsE)]
  · intro hne
    obtain ⟨hM, lM, hsm, hcm, hmem, hmax⟩ :=
      childElems_max_via_caches hlen hch hsummEq hsummInv hne
    have hsne : isTreeEmpty summ2 ((k + 1) / 2) = false := by
      rw [Bool.eq_false_iff]
      intro hcon
      have hsE := (isTreeEmpty_iff hsummInv).mp hcon
      obtain ⟨y0, hy0⟩ := hne
      obtain ⟨hhy0, hly0⟩ := (mem_childElems_iff hlen hch).mp hy0
      have : highPart k y0 ∈ treeElems summ2 ((k + 1) / 2) :=
        (summ_mem_iff hsummEq).mpr ⟨hhy0, ⟨_, hly0⟩⟩
      rw [hsE] at this
      simp at this
    rw [eraseMaxAux, if_neg (by rw [hsne]; exact Bool.false_ne_true), hsm]
    simp only [Option.getD_some]
    rw [hcm]
    simp only [Option.getD_some]
    exact ⟨hmem, hmax⟩

theorem recEraseElement_leaf {k : Nat} (hk : k ≤ 4) (x bits : Nat) :
    recEraseElement x (.leaf bits) k =
      if bits.testBit x then (true, .leaf (bits ^^^ 2 ^ x)) else (false, .leaf bits) := by
  unfold recEraseElement
  rw [dif_pos hk]

theorem recEraseElement_node_unfold {k : Nat} (hk : ¬ k ≤ 4) (x : Nat) (e : Bool)
    (mn mx : Nat) (summ : VTree) (cs : List VTree) :
    recEraseElement x (.node e mn mx summ cs) k =
      if e then (false, .node e mn mx summ cs)
      else if mn = mx then
        if x = mn then (true, .node true mn mx summ cs)
        else (false, .node e mn mx summ cs)
      else if x = mn then
        if isTreeEmpty summ ((k + 1) / 2) then (true, .node false mx mx summ cs)
        else
          (true, .node false
            (combine k ((treeMin summ ((k + 1) / 2)).getD 0)
              ((treeMin (cs.getD ((treeMin summ ((k + 1) / 2)).getD 0) (.leaf 0))
                (k / 2)).getD 0))
            mx
            (if isTreeEmpty
                (recEraseElement
                  ((treeMin (cs.getD ((treeMin summ ((k + 1) / 2)).getD 0) (.leaf 0))
                    (k / 2)).getD 0)
                  (cs.getD ((treeMin summ ((k + 1) / 2)).getD 0) (.leaf 0)) (k / 2)).2 (k / 2)
              then (recEraseElement ((treeMin summ ((k + 1) / 2)).getD 0) summ
                ((k + 1) / 2)).2
              else summ)
            (cs.set ((treeMin summ ((k + 1) / 2)).getD 0)
              (recEraseElement
                ((treeMin (cs.getD ((treeMin summ ((k + 1) / 2)).getD 0) (.leaf 0))
                  (k / 2)).getD 0)
                (cs.getD ((treeMin summ ((k + 1) / 2)).getD 0) (.leaf 0)) (k / 2)).2))
      else if x = mx then
        if isTreeEmpty summ ((k + 1) / 2) then (true, .node false mn mn summ cs)
        else
          (true, .node false mn
            (eraseMaxAux k mn
              (if isTreeEmpty
                  (recEraseElement
                    ((treeMax (cs.getD ((treeMax summ ((k + 1) / 2)).getD 0) (.leaf 0))
                      (k / 2)).getD 0)
                    (cs.getD ((treeMax summ ((k + 1) / 2)).getD 0) (.leaf 0)) (k / 2)).2 (k / 2)
                then (recEraseElement ((treeMax summ ((k + 1) / 2)).getD 0) summ
                  ((k + 1) / 2)).2
                else summ)
              (cs.set ((treeMax summ ((k + 1) / 2)).getD 0)
                (recEraseElement
                  ((treeMax (cs.getD ((treeMax summ ((k + 1) / 2)).getD 0) (.leaf 0))
                    (k / 2)).getD 0)
                  (cs.getD ((treeMax summ ((k + 1) / 2)).getD 0) (.leaf 0)) (k / 2)).2))
            (if isTreeEmpty
                (recEraseElement
                  ((treeMax (cs.getD ((treeMax summ ((k + 1) / 2)).getD 0) (.leaf 0))
                    (k / 2)).getD 0)
                  (cs.getD ((treeMax summ ((k + 1) / 2)).getD 0) (.leaf 0)) (k / 2)).2 (k / 2)
              then (recEraseElement ((treeMax summ ((k + 1) / 2)).getD 0) summ
                ((k + 1) / 2)).2
              else summ)
            (cs.set ((treeMax summ ((k + 1) / 2)).getD 0)
              (recEraseElement
                ((treeMax (cs.getD ((treeMax summ ((k + 1) / 2)).getD 0) (.leaf 0))
                  (k / 2)).getD 0)
                (cs.getD ((treeMax summ ((k + 1) / 2)).getD 0) (.leaf 0)) (k / 2)).2))
      else
        if recFindElement (highPart k x) summ ((k + 1) / 2) then
          ((recEraseElement (lowPart k x) (cs.getD (highPart k x) (.leaf 0)) (k / 2)).1,
            .node false mn mx
              (if isTreeEmpty
                  (recEraseElement (lowPart k x) (cs.getD (highPart k x) (.leaf 0))
                    (k / 2)).2 (k / 2)
                then (recEraseElement (highPart k x) summ ((k + 1) / 2)).2 else summ)
              (cs.set (highPart k x)
                (recEraseElement (lowPart k x) (cs.getD (highPart k x) (.leaf 0)) (k / 2)).2))
        else (false, .node e mn mx summ cs) := by
  conv_lhs => unfold recEraseElement
  rw [dif_neg hk]

theorem recEraseElement_node_empty {k : Nat} (hk : ¬ k ≤ 4) (x mn mx : Nat) (summ : VTree)
    (cs : List VTree) :
    recEraseElement x (.node true mn mx summ cs) k = (false, .node true mn mx summ cs) := by
  rw [recEraseElement_node_unfold hk, if_pos rfl]

theorem recEraseElement_node_single {k : Nat} (hk : ¬ k ≤ 4) (x : Nat) {mn mx : Nat}
    (hmneq : mn = mx) (summ : VTree) (cs : List VTree) :
    recEraseElement x (.node false mn mx summ cs) k =
      if x = mn then (true, .node true mn mx summ cs)
      else (false, .node false mn mx summ cs) := by
  rw [recEraseElement_node_unfold hk, if_neg Bool.false_ne_true, if_pos hmneq]

theorem recEraseElement_node_min {k : Nat} (hk : ¬ k ≤ 4) {mn mx : Nat} (hmne : ¬ mn = mx)
    {summ : VTree} {cs : List VTree}
    (hsne : isTreeEmpty summ ((k + 1) / 2) = false) {h l : Nat}
    (hh : treeMin summ ((k + 1) / 2) = some h)
    (hl : treeMin (cs.getD h (.leaf 0)) (k / 2) = some l) :
    recEraseElement mn (.node false mn mx summ cs) k =
      (true, .node false (combine k h l) mx
        (if isTreeEmpty (recEraseElement l (cs.getD h (.leaf 0)) (k / 2)).2 (k / 2)
          then (recEraseElement h summ ((k + 1) / 2)).2 else summ)
        (cs.set h (recEraseElement l (cs.getD h (.leaf 0)) (k / 2)).2)) := by
  rw [recEraseElement_node_unfold hk, if_neg Bool.false_ne_true, if_neg hmne, if_pos rfl,
    hsne, if_neg Bool.false_ne_true, hh]
  simp only [Option.getD_some]
  rw [hl]
  simp only [Option.getD_some]

theorem recEraseElement_node_max {k : Nat} (hk : ¬ k ≤ 4) {mn mx : Nat} (hmne : ¬ mn = mx)
    {summ : VTree} {cs : List VTree}
    (hsne : isTreeEmpty summ ((k + 1) / 2) = false) {h l : Nat}
    (hh : treeMax summ ((k + 1) / 2) = some h)
    (hl : treeMax (cs.getD h (.leaf 0)) (k / 2) = some l) :
    recEraseElement mx (.node false mn mx summ cs) k =
      (true, .node false mn
        (eraseMaxAux k mn
          (if isTreeEmpty (recEraseElement l (cs.getD h (.leaf 0)) (k / 2)).2 (k / 2)
            then (recEraseElement h summ ((k + 1) / 2)).2 else summ)
          (cs.set h (recEraseElement l (cs.getD h (.leaf 0)) (k / 2)).2))
        (if isTreeEmpty (recEraseElement l (cs.getD h (.leaf 0)) (k / 2)).2 (k / 2)
          then (recEraseElement h summ ((k + 1) / 2)).2 else summ)
        (cs.set h (recEraseElement l (cs.getD h (.leaf 0)) (k / 2)).2)) := by
  rw [recEraseElement_node_unfold hk, if_neg Bool.false_ne_true, if_neg hmne,
    if_neg (show ¬ mx = mn from fun hc => hmne hc.symm), if_pos rfl, hsne,
    if_neg Bool.false_ne_true, hh]
  simp only [Option.getD_some]
  rw [hl]
  simp only [Option.getD_some]

theorem recEraseElement_node_go {k x : Nat} (hk : ¬ k ≤ 4) {mn mx : Nat}
    (hmne : ¬ mn = mx) (hxmn : ¬ x = mn) (hxmx : ¬ x = mx) (summ : VTree) (cs : List VTree) :
    recEraseElement x (.node false mn mx summ cs) k =
      if recFindElement (highPart k x) summ ((k + 1) / 2) then
        ((recEraseElement (lowPart k x) (cs.getD (highPart k x) (.leaf 0)) (k / 2)).1,
          .node false mn mx
            (if isTreeEmpty
                (recEraseElement (lowPart k x) (cs.getD (highPart k x) (.leaf 0)) (k / 2)).2
                (k / 2)
              then (recEraseElement (highPart k x) summ ((k + 1) / 2)).2 else summ)
            (cs.set (highPart k x)
              (recEraseElement (lowPart k x) (cs.getD (highPart k x) (.leaf 0)) (k / 2)).2))
      else (false, .node false mn mx summ cs) := by
  rw [recEraseElement_node_unfold hk, if_neg Bool.false_ne_true, if_neg hmne, if_neg hxmn,
    if_neg hxmx]

theorem recEraseElement_spec {t : VTree} {k : Nat} (hinv : Inv t k) :
    ∀ x, x < 2 ^ k → ∀ b t', recEraseElement x t k = (b, t') →
      Inv t' k ∧ treeElems t' k = (treeElems t k).erase x ∧
        (b = true ↔ x ∈ treeElems t k) := by
  induction hinv with
  | @leaf kk bits hk hb =>
    intro x hx b t' heq
    rw [recEraseElement_leaf hk] at heq
    by_cases hbit : bits.testBit x
    · rw [if_pos hbit] at heq
      injection heq with h1 h2
      subst h1
      subst h2
      refine ⟨Inv.leaf hk (Nat.xor_lt_two_pow hb
        ((Nat.pow_lt_pow_iff_right (by omega)).mpr hx)), ?_, ?_⟩
      · ext i
        rw [Finset.mem_erase, mem_treeElems_leaf hk, mem_treeElems_leaf hk]
        by_cases hix : i = x
        · subst hix
          refine iff_of_false ?_ ?_
          · rintro ⟨_, hcon⟩
            rw [Nat.testBit_xor, hbit, Nat.testBit_two_pow_self] at hcon
            simp at hcon
          · rintro ⟨hcon, _⟩
            exact hcon rfl
        · constructor
          · rintro ⟨hi, hb2⟩
            rw [Nat.testBit_xor, Nat.testBit_two_pow_of_ne (fun hc => hix hc.symm)] at hb2
            simp only [Bool.xor_false] at hb2
            exact ⟨hix, hi, hb2⟩
          · rintro ⟨_, hi, hb2⟩
            refine ⟨hi, ?_⟩
            rw [Nat.testBit_xor, Nat.testBit_two_pow_of_ne (fun hc => hix hc.symm), hb2]
            rfl
      · exact iff_of_true rfl ((mem_treeElems_leaf hk).mpr ⟨hx, hbit⟩)
    · rw [if_neg hbit] at heq
      injection heq with h1 h2
      subst h1
      subst h2
      have hnot : x ∉ treeElems (.leaf bits) kk :=
        fun hmem => hbit ((mem_treeElems_leaf hk).mp hmem).2
      exact ⟨Inv.leaf hk hb, (Finset.erase_eq_self.mpr hnot).symm,
        iff_of_false Bool.false_ne_true hnot⟩
  | @emptyNode kk mn mx summ cs hk hlen hsumm hch hse hce ihsumm ihch =>
    intro x hx b t' heq
    rw [recEraseElement_node_empty (by omega)] at heq
    injection heq with h1 h2
    subst h1
    subst h2
    rw [treeElems_node (show ¬ kk ≤ 4 by omega), if_pos rfl]
    exact ⟨Inv.emptyNode hk hlen hsumm hch hse hce, by simp,
      iff_of_false Bool.false_ne_true (by simp)⟩
  | @fullNode kk mn mx summ cs hk hlen hsumm hch hsummEq hmn hmx hminlt hmaxE hmaxNE ihsumm ihch =>
    intro x hx b t' heq
    rw [treeElems_node (show ¬ kk ≤ 4 by omega), if_neg Bool.false_ne_true]
    by_cases hmneq : mn = mx
    · have hCEemp : childElems cs kk = ∅ := by
        rcases Finset.eq_empty_or_nonempty (childElems cs kk) with hemp | hne
        · exact hemp
        · have := hminlt mx (hmaxNE hne).1
          omega
      rw [recEraseElement_node_single (by omega) x hmneq] at heq
      by_cases hxmn : x = mn
      · subst hxmn
        rw [if_pos rfl] at heq
        injection heq with h1 h2
        subst h1
        subst h2
        refine ⟨?_, ?_, iff_of_true rfl (Finset.mem_insert_self _ _)⟩
        · have hce' : ∀ c ∈ cs, treeElems c (kk / 2) = ∅ := by
            intro c hc
            obtain ⟨i, hi, hgi⟩ := @exists_getD_of_mem _ _ (VTree.leaf 0) hc
            rw [← hgi]
            exact child_empty_of_childElems_empty hCEemp (by rw [← hlen]; exact hi)
          have hse' : treeElems summ ((kk + 1) / 2) = ∅ := by
            rw [hsummEq, Finset.filter_eq_empty_iff]
            intro h hh
            rw [child_empty_of_childElems_empty hCEemp (Finset.mem_range.mp hh)]
            simp
          exact Inv.emptyNode hk hlen hsumm hch hse' hce'
        · rw [treeElems_node (show ¬ kk ≤ 4 by omega), if_pos rfl, hCEemp]
          simp
      · rw [if_neg hxmn] at heq
        injection heq with h1 h2
        subst h1
        subst h2
        have hxnot : x ∉ insert mn (childElems cs kk) := by
          rw [hCEemp]
          intro hmem
          rcases Finset.mem_insert.mp hmem with rfl | hmem
          · exact hxmn rfl
          · simp at hmem
        refine ⟨Inv.fullNode hk hlen hsumm hch hsummEq hmn hmx hminlt hmaxE hmaxNE, ?_,
          iff_of_false Bool.false_ne_true hxnot⟩
        rw [treeElems_node (show ¬ kk ≤ 4 by omega), if_neg Bool.false_ne_true,
          Finset.erase_eq_self.mpr hxnot]
    · have hCEne : (childElems cs kk).Nonempty := by
        rcases Finset.eq_empty_or_nonempty (childElems cs kk) with hemp | hne
        · exact absurd (hmaxE hemp).symm hmneq
        · exact hne
      have hmnnot : mn ∉ childElems cs kk := fun hmem => absurd (hminlt mn hmem) (by omega)
      have hsummne_bool : isTreeEmpty summ ((kk + 1) / 2) = false := by
        rw [Bool.eq_false_iff]
        intro hcon
        have hsE := (isTreeEmpty_iff hsumm).mp hcon
        obtain ⟨y0, hy0⟩ := hCEne
        obtain ⟨hhy0, hly0⟩ := (mem_childElems_iff hlen hch).mp hy0
        have hmem : highPart kk y0 ∈ treeElems summ ((kk + 1) / 2) :=
          (summ_mem_iff hsummEq).mpr ⟨hhy0, ⟨_, hly0⟩⟩
        rw [hsE] at hmem
        simp at hmem
      by_cases hxmn : x = mn
      · subst hxmn
        obtain ⟨hmS, lmS, hsmin, hcmin, hminmem, hminle⟩ :=
          childElems_min_via_caches hlen hch hsummEq hsumm hCEne
        rw [recEraseElement_node_min (by omega) hmneq hsummne_bool hsmin hcmin] at heq
        injection heq with h1 h2
        subst h1
        subst h2
        have hsminspec := treeMin_spec hsumm
        rw [hsmin] at hsminspec
        obtain ⟨hmSmem, _⟩ := hsminspec
        obtain ⟨hhmS, _⟩ := (summ_mem_iff hsummEq).mp hmSmem
        have hcminspec := treeMin_spec (child_inv hlen hch hhmS)
        rw [hcmin] at hcminspec
        obtain ⟨hlmem, hlleast⟩ := hcminspec
        have hlmlt : lmS < 2 ^ (kk / 2) :=
          Finset.mem_range.mp (elems_subset_range (child_inv hlen hch hhmS) hlmem)
        obtain ⟨hcInv2, hcElems, hcFlag⟩ :=
          ihch (cs.getD hmS (.leaf 0)) (getD_mem (by rw [hlen]; exact hhmS)) lmS hlmlt
            (recEraseElement lmS (cs.getD hmS (.leaf 0)) (kk / 2)).1
            (recEraseElement lmS (cs.getD hmS (.leaf 0)) (kk / 2)).2 rfl
        have hCS : childElems
            (cs.set hmS (recEraseElement lmS (cs.getD hmS (.leaf 0)) (kk / 2)).2) kk =
            (childElems cs kk).erase (combine kk hmS lmS) :=
          childElems_set_erase hlen hch hhmS hlmlt hcElems
        have hsumm2 : Inv (if isTreeEmpty
              (recEraseElement lmS (cs.getD hmS (.leaf 0)) (kk / 2)).2 (kk / 2)
            then (recEraseElement hmS summ ((kk + 1) / 2)).2 else summ) ((kk + 1) / 2) ∧
            treeElems (if isTreeEmpty
              (recEraseElement lmS (cs.getD hmS (.leaf 0)) (kk / 2)).2 (kk / 2)
            then (recEraseElement hmS summ ((kk + 1) / 2)).2 else summ) ((kk + 1) / 2) =
            (Finset.range (2 ^ ((kk + 1) / 2))).filter
              (fun h => (treeElems
                ((cs.set hmS
                  (recEraseElement lmS (cs.getD hmS (.leaf 0)) (kk / 2)).2).getD h (.leaf 0))
                (kk / 2)).Nonempty) := by
          by_cases hc'E : isTreeEmpty
              (recEraseElement lmS (cs.getD hmS (.leaf 0)) (kk / 2)).2 (kk / 2)
          · rw [if_pos hc'E]
            have hc'emp := (isTreeEmpty_iff hcInv2).mp hc'E
            obtain ⟨hsInv2, hsElems2, _⟩ :=
              ihsumm hmS hhmS (recEraseElement hmS summ ((kk + 1) / 2)).1
                (recEraseElement hmS summ ((kk + 1) / 2)).2 rfl
            exact ⟨hsInv2, summEq_erase_of_empty hlen hsummEq hhmS hsElems2 hc'emp⟩
          · rw [if_neg hc'E]
            have hc'ne : (treeElems
                (recEraseElement lmS (cs.getD hmS (.leaf 0)) (kk / 2)).2 (kk / 2)).Nonempty := by
              rw [Finset.nonempty_iff_ne_empty]
              intro hemp
              exact hc'E ((isTreeEmpty_iff hcInv2).mpr hemp)
            exact ⟨hsumm, summEq_set_of_nonempty hlen hsummEq hhmS ⟨lmS, hlmem⟩ hc'ne⟩
        refine ⟨?_, ?_, iff_of_true rfl (Finset.mem_insert_self _ _)⟩
        · refine Inv.fullNode hk (by rw [List.length_set, hlen]) hsumm2.1 ?_ hsumm2.2
            (combine_lt _ _ _ hhmS hlmlt) hmx ?_ ?_ ?_
          · intro c2 hc2
            rcases mem_of_mem_set hc2 with rfl | hc2
            · exact hcInv2
            · exact hch _ hc2
          · rw [hCS]
            intro y hy
            obtain ⟨hyne, hymem⟩ := Finset.mem_erase.mp hy
            have := hminle y hymem
            omega
          · rw [hCS]
            intro hemp
            have hmxCE := (hmaxNE hCEne).1
            by_cases hc : mx = combine kk hmS lmS
            · exact hc
            · have hmem : mx ∈ (childElems cs kk).erase (combine kk hmS lmS) :=
                Finset.mem_erase.mpr ⟨hc, hmxCE⟩
              rw [hemp] at hmem
              simp at hmem
          · rw [hCS]
            intro hne2
            have hmxCE := (hmaxNE hCEne).1
            have hmxne : mx ≠ combine kk hmS lmS := by
              obtain ⟨y0, hy0⟩ := hne2
              obtain ⟨hy0ne, hy0mem⟩ := Finset.mem_erase.mp hy0
              intro hcon
              have h1 := hminle y0 hy0mem
              have h2 := (hmaxNE hCEne).2 y0 hy0mem
              omega
            exact ⟨Finset.mem_erase.mpr ⟨hmxne, hmxCE⟩,
              fun y hy => (hmaxNE hCEne).2 y (Finset.mem_erase.mp hy).2⟩
        · rw [treeElems_node (show ¬ kk ≤ 4 by omega), if_neg Bool.false_ne_true, hCS,
            Finset.insert_erase hminmem, Finset.erase_insert hmnnot]
      · by_cases hxmx : x = mx
        · rw [hxmx] at heq ⊢
          obtain ⟨hMS, lMS, hsmax, hcmax, hmaxmem, hmaxge⟩ :=
            childElems_max_via_caches hlen hch hsummEq hsumm hCEne
          have hmxeq : mx = combine kk hMS lMS :=
            Nat.le_antisymm (hmaxge mx (hmaxNE hCEne).1) ((hmaxNE hCEne).2 _ hmaxmem)
          rw [recEraseElement_node_max (by omega) hmneq hsummne_bool hsmax hcmax] at heq
          injection heq with h1 h2
          subst h1
          subst h2
          have hsmaxspec := treeMax_spec hsumm
          rw [hsmax] at hsmaxspec
          obtain ⟨hMSmem, _⟩ := hsmaxspec
          obtain ⟨hhMS, _⟩ := (summ_mem_iff hsummEq).mp hMSmem
          have hcmaxspec := treeMax_spec (child_inv hlen hch hhMS)
          rw [hcmax] at hcmaxspec
          obtain ⟨hlMmem, hlMmax⟩ := hcmaxspec
          have hlMlt : lMS < 2 ^ (kk / 2) :=
            Finset.mem_range.mp (elems_subset_range (child_inv hlen hch hhMS) hlMmem)
          obtain ⟨hcInv2, hcElems, hcFlag⟩ :=
            ihch (cs.getD hMS (.leaf 0)) (getD_mem (by rw [hlen]; exact hhMS)) lMS hlMlt
              (recEraseElement lMS (cs.getD hMS (.leaf 0)) (kk / 2)).1
              (recEraseElement lMS (cs.getD hMS (.leaf 0)) (kk / 2)).2 rfl
          have hCS : childElems
              (cs.set hMS (recEraseElement lMS (cs.getD hMS (.leaf 0)) (kk / 2)).2) kk =
              (childElems cs kk).erase mx := by
            rw [hmxeq]
            exact childElems_set_erase hlen hch hhMS hlMlt hcElems
          have hsumm2 : Inv (if isTreeEmpty
                (recEraseElement lMS (cs.getD hMS (.leaf 0)) (kk / 2)).2 (kk / 2)
              then (recEraseElement hMS summ ((kk + 1) / 2)).2 else summ) ((kk + 1) / 2) ∧
              treeElems (if isTreeEmpty
                (recEraseElement lMS (cs.getD hMS (.leaf 0)) (kk / 2)).2 (kk / 2)
              then (recEraseElement hMS summ ((kk + 1) / 2)).2 else summ) ((kk + 1) / 2) =
              (Finset.range (2 ^ ((kk + 1) / 2))).filter
                (fun h => (treeElems
                  ((cs.set hMS
                    (recEraseElement lMS (cs.getD hMS (.leaf 0)) (kk / 2)).2).getD h (.leaf 0))
                  (kk / 2)).Nonempty) := by
            by_cases hc'E : isTreeEmpty
                (recEraseElement lMS (cs.getD hMS (.leaf 0)) (kk / 2)).2 (kk / 2)
            · rw [if_pos hc'E]
              have hc'emp := (isTreeEmpty_iff hcInv2).mp hc'E
              obtain ⟨hsInv2, hsElems2, _⟩ :=
                ihsumm hMS hhMS (recEraseElement hMS summ ((kk + 1) / 2)).1
                  (recEraseElement hMS summ ((kk + 1) / 2)).2 rfl
              exact ⟨hsInv2, summEq_erase_of_empty hlen hsummEq hhMS hsElems2 hc'emp⟩
            · rw [if_neg hc'E]
              have hc'ne : (treeElems
                  (recEraseElement lMS (cs.getD hMS (.leaf 0)) (kk / 2)).2
                  (kk / 2)).Nonempty := by
                rw [Finset.nonempty_iff_ne_empty]
                intro hemp
                exact hc'E ((isTreeEmpty_iff hcInv2).mpr hemp)
              exact ⟨hsumm, summEq_set_of_nonempty hlen hsummEq hhMS ⟨lMS, hlMmem⟩ hc'ne⟩
          have hauxspec := @eraseMaxAux_spec kk mn _ _
            (by rw [List.length_set, hlen]) (fun c2 hc2 => by
              rcases mem_of_mem_set hc2 with rfl | hc2
              · exact hcInv2
              · exact hch _ hc2) hsumm2.2 hsumm2.1
          refine ⟨?_, ?_, iff_of_true rfl (Finset.mem_insert_of_mem (hmaxNE hCEne).1)⟩
          · refine Inv.fullNode hk (by rw [List.length_set, hlen]) hsumm2.1 ?_ hsumm2.2
              hmn ?_ ?_ ?_ ?_
            · intro c2 hc2
              rcases mem_of_mem_set hc2 with rfl | hc2
              · exact hcInv2
              · exact hch _ hc2
            · rcases Finset.eq_empty_or_nonempty (childElems
                  (cs.set hMS (recEraseElement lMS (cs.getD hMS (.leaf 0)) (kk / 2)).2) kk)
                with hemp | hne2
              · rw [hauxspec.1 hemp]
                exact hmn
              · exact childElems_lt (by rw [List.length_set, hlen]) (fun c2 hc2 => by
                  rcases mem_of_mem_set hc2 with rfl | hc2
                  · exact hcInv2
                  · exact hch _ hc2) (hauxspec.2 hne2).1
            · intro y hy
              rw [hCS] at hy
              exact hminlt y (Finset.mem_erase.mp hy).2
            · exact hauxspec.1
            · exact hauxspec.2
          · rw [treeElems_node (show ¬ kk ≤ 4 by omega), if_neg Bool.false_ne_true, hCS,
              Finset.erase_insert_of_ne hmneq]
        · rw [recEraseElement_node_go (by omega) hmneq hxmn hxmx] at heq
          have hhx : highPart kk x < 2 ^ ((kk + 1) / 2) := highPart_lt _ _ hx
          by_cases hfind : recFindElement (highPart kk x) summ ((kk + 1) / 2) = true
          · rw [if_pos hfind] at heq
            injection heq with h1 h2
            subst h1
            subst h2
            have hfmem : highPart kk x ∈ treeElems summ ((kk + 1) / 2) :=
              (recFindElement_spec hsumm _ hhx).mp hfind
            have holdne := ((summ_mem_iff hsummEq).mp hfmem).2
            obtain ⟨hcInv2, hcElems, hcFlag⟩ :=
              ihch (cs.getD (highPart kk x) (.leaf 0)) (getD_mem (by rw [hlen]; exact hhx))
                (lowPart kk x) (lowPart_lt _ _)
                (recEraseElement (lowPart kk x) (cs.getD (highPart kk x) (.leaf 0))
                  (kk / 2)).1
                (recEraseElement (lowPart kk x) (cs.getD (highPart kk x) (.leaf 0))
                  (kk / 2)).2 rfl
            have hCS : childElems
                (cs.set (highPart kk x)
                  (recEraseElement (lowPart kk x) (cs.getD (highPart kk x) (.leaf 0))
                    (kk / 2)).2) kk =
                (childElems cs kk).erase x := by
              have := childElems_set_erase hlen hch hhx (lowPart_lt kk x) hcElems
              rwa [combine_highPart_lowPart] at this
            have hsumm2 : Inv (if isTreeEmpty
                  (recEraseElement (lowPart kk x) (cs.getD (highPart kk x) (.leaf 0))
                    (kk / 2)).2 (kk / 2)
                then (recEraseElement (highPart kk x) summ ((kk + 1) / 2)).2 else summ)
                ((kk + 1) / 2) ∧
                treeElems (if isTreeEmpty
                  (recEraseElement (lowPart kk x) (cs.getD (highPart kk x) (.leaf 0))
                    (kk / 2)).2 (kk / 2)
                then (recEraseElement (highPart kk x) summ ((kk + 1) / 2)).2 else summ)
                ((kk + 1) / 2) =
                (Finset.range (2 ^ ((kk + 1) / 2))).filter
                  (fun h => (treeElems
                    ((cs.set (highPart kk x)
                      (recEraseElement (lowPart kk x) (cs.getD (highPart kk x) (.leaf 0))
                        (kk / 2)).2).getD h (.leaf 0))
                    (kk / 2)).Nonempty) := by
              by_cases hc'E : isTreeEmpty
                  (recEraseElement (lowPart kk x) (cs.getD (highPart kk x) (.leaf 0))
                    (kk / 2)).2 (kk / 2)
              · rw [if_pos hc'E]
                have hc'emp := (isTreeEmpty_iff hcInv2).mp hc'E
                obtain ⟨hsInv2, hsElems2, _⟩ :=
                  ihsumm (highPart kk x) hhx
                    (recEraseElement (highPart kk x) summ ((kk + 1) / 2)).1
                    (recEraseElement (highPart kk x) summ ((kk + 1) / 2)).2 rfl
                exact ⟨hsInv2, summEq_erase_of_empty hlen hsummEq hhx hsElems2 hc'emp⟩
              · rw [if_neg hc'E]
                have hc'ne : (treeElems
                    (recEraseElement (lowPart kk x) (cs.getD (highPart kk x) (.leaf 0))
                      (kk / 2)).2 (kk / 2)).Nonempty := by
                  rw [Finset.nonempty_iff_ne_empty]
                  intro hemp
                  exact hc'E ((isTreeEmpty_iff hcInv2).mpr hemp)
                exact ⟨hsumm, summEq_set_of_nonempty hlen hsummEq hhx holdne hc'ne⟩
            refine ⟨?_, ?_, ?_⟩
            · refine Inv.fullNode hk (by rw [List.length_set, hlen]) hsumm2.1 ?_ hsumm2.2
                hmn hmx ?_ ?_ ?_
              · intro c2 hc2
                rcases mem_of_mem_set hc2 with rfl | hc2
                · exact hcInv2
                · exact hch _ hc2
              · intro y hy
                rw [hCS] at hy
                exact hminlt y (Finset.mem_erase.mp hy).2
              · rw [hCS]
                intro hemp
                rcases Finset.eq_empty_or_nonempty (childElems cs kk) with hemp2 | hne2
                · exact hmaxE hemp2
                · have hmxCE := (hmaxNE hne2).1
                  have : mx ∈ (childElems cs kk).erase x :=
                    Finset.mem_erase.mpr ⟨fun hc => hxmx hc.symm, hmxCE⟩
                  rw [hemp] at this
                  simp at this
              · rw [hCS]
                intro hne2
                have hmxCE := (hmaxNE hCEne).1
                exact ⟨Finset.mem_erase.mpr ⟨fun hc => hxmx hc.symm, hmxCE⟩,
                  fun y hy => (hmaxNE hCEne).2 y (Finset.mem_erase.mp hy).2⟩
            · rw [treeElems_node (show ¬ kk ≤ 4 by omega), if_neg Bool.false_ne_true, hCS,
                Finset.erase_insert_of_ne (fun hc => hxmn hc.symm)]
            · rw [hcFlag]
              constructor
              · intro hl
                exact Finset.mem_insert_of_mem ((mem_childElems_iff hlen hch).mpr ⟨hhx, hl⟩)
              · intro hmem
                rcases Finset.mem_insert.mp hmem with rfl | hmem
                · exact absurd rfl hxmn
                · exact ((mem_childElems_iff hlen hch).mp hmem).2
          · rw [if_neg hfind] at heq
            injection heq with h1 h2
            subst h1
            subst h2
            have hxnotCE : x ∉ childElems cs kk := by
              intro hxCE
              obtain ⟨hhx2, hlx⟩ := (mem_childElems_iff hlen hch).mp hxCE
              have hmem : highPart kk x ∈ treeElems summ ((kk + 1) / 2) :=
                (summ_mem_iff hsummEq).mpr ⟨hhx2, ⟨_, hlx⟩⟩
              exact hfind ((recFindElement_spec hsumm _ hhx2).mpr hmem)
            have hxnot : x ∉ insert mn (childElems cs kk) := by
              intro hmem
              rcases Finset.mem_insert.mp hmem with rfl | hmem
              · exact hxmn rfl
              · exact hxnotCE hmem
            refine ⟨Inv.fullNode hk hlen hsumm hch hsummEq hmn hmx hminlt hmaxE hmaxNE, ?_,
              iff_of_false Bool.false_ne_true hxnot⟩
            rw [treeElems_node (show ¬ kk ≤ 4 by omega), if_neg Bool.false_ne_true,
              Finset.erase_eq_self.mpr hxnot]

theorem recCreateTree_spec : ∀ k : Nat, Inv (recCreateTree k) k ∧
    treeElems (recCreateTree k) k = ∅ := by
  intro k
  induction k using Nat.strongRecOn with
  | ind k ih =>
    by_cases hk : k ≤ 4
    · rw [show recCreateTree k = .leaf 0 by unfold recCreateTree; rw [dif_pos hk]]
      refine ⟨Inv.leaf hk (Nat.pos_pow_of_pos _ (by omega)), treeElems_leaf_zero k⟩
    · rw [show recCreateTree k = .node true 0 0 (recCreateTree ((k + 1) / 2))
          (List.replicate (2 ^ ((k + 1) / 2)) (recCreateTree (k / 2))) by
        conv_lhs => unfold recCreateTree
        rw [dif_neg hk]]
      have hlo := ih (k / 2) (by omega)
      have hhi := ih ((k + 1) / 2) (by omega)
      have hall : ∀ c ∈ List.replicate (2 ^ ((k + 1) / 2)) (recCreateTree (k / 2)),
          c = recCreateTree (k / 2) := fun c hc => List.eq_of_mem_replicate hc
      refine ⟨Inv.emptyNode (by omega) (List.length_replicate _ _) hhi.1
        (fun c hc => by rw [hall c hc]; exact hlo.1) hhi.2
        (fun c hc => by rw [hall c hc]; exact hlo.2), ?_⟩
      rw [treeElems_node hk, if_pos rfl]

theorem recCloneTree_eq : ∀ (k : Nat) (t : VTree), recCloneTree t k = t := by
  intro k
  induction k using Nat.strongRecOn with
  | ind k ih =>
    intro t
    by_cases hk : k ≤ 4
    · unfold recCloneTree
      rw [dif_pos hk]
      cases t <;> rfl
    · unfold recCloneTree
      rw [dif_neg hk]
      cases t with
      | leaf bits => rfl
      | node e mn mx summ cs =>
        show VTree.node e mn mx (recCloneTree summ ((k + 1) / 2))
            (cs.map (fun c => recCloneTree c (k / 2))) = VTree.node e mn mx summ cs
        rw [ih ((k + 1) / 2) (by omega) summ]
        have hmap : cs.map (fun c => recCloneTree c (k / 2)) = cs := by
          induction cs with
          | nil => rfl
          | cons a l ihl =>
            rw [List.map_cons, ih (k / 2) (by omega) a, ihl]
        rw [hmap]

/-- The public class (header `VanEmdeBoasTree.h` lines 18–274): a `void*` root
modelled by `VTree`, holding 16-bit values, and the cached element count
`mSize` (lines 214–218). -/
structure VanEmdeBoasTree where
  mRoot : VTree
  mSize : Nat

/-- Modelled from the spec: the default constructor builds an empty tree of
`TOTAL_BITS = 16` bits with size zero (spec §4.4, §6). -/
def VanEmdeBoasTree.mkEmpty : VanEmdeBoasTree := ⟨recCreateTree 16, 0⟩

/-- Modelled from the spec: `empty()` returns whether `size == 0` (spec §6). -/
def VanEmdeBoasTree.empty (s : VanEmdeBoasTree) : Bool := s.mSize == 0

/-- The cached size (header lines 54–60, spec §4.5). -/
def VanEmdeBoasTree.size (s : VanEmdeBoasTree) : Nat := s.mSize

/-- Modelled from the spec: `contains` — membership through the recursive
search (spec §6). -/
def VanEmdeBoasTree.contains (s : VanEmdeBoasTree) (x : Nat) : Bool :=
  recFindElement x s.mRoot 16

/-- Modelled from the spec: `find` returns a cursor to `x` or the end cursor;
a cursor is represented by its `mCurr` field, `none` being the end sentinel
(header lines 102–109, 305–315). -/
def VanEmdeBoasTree.find (s : VanEmdeBoasTree) (x : Nat) : Option Nat :=
  if recFindElement x s.mRoot 16 then some x else none

/-- Modelled from the spec: `successor(x)` cursor (header lines 111–124). -/
def VanEmdeBoasTree.successor (s : VanEmdeBoasTree) (x : Nat) : Option Nat :=
  recSuccessor x s.mRoot 16

/-- Modelled from the spec: `predecessor(x)` cursor (header lines 111–124). -/
def VanEmdeBoasTree.predecessor (s : VanEmdeBoasTree) (x : Nat) : Option Nat :=
  recPredecessor x s.mRoot 16

/-- Modelled from the spec: `begin()` — a cursor at the smallest element, or
the end cursor when the set is empty (header lines 70–80, spec §4.6). -/
def VanEmdeBoasTree.beginIter (s : VanEmdeBoasTree) : Option Nat := treeMin s.mRoot 16

/-- The `end()` cursor: the sentinel `mCurr = kNil` (header lines 70–80). -/
def VanEmdeBoasTree.endIter (_ : VanEmdeBoasTree) : Option Nat := none

/-- Modelled from the spec: `insert(x)` returns a cursor to `x` paired with
the `inserted?` flag, bumping the cached size on success (header lines
126–135, spec §4.5); the mutated set is returned as the second component. -/
def VanEmdeBoasTree.insert (s : VanEmdeBoasTree) (x : Nat) :
    (Option Nat × Bool) × VanEmdeBoasTree :=
  let r := recInsertElement x s.mRoot 16
  ((some x, r.1), ⟨r.2, if r.1 then s.mSize + 1 else s.mSize⟩)

/-- Modelled from the spec: `erase(x)` returns the `removed?` flag, dropping
the cached size on success (header lines 137–147, spec §4.5). -/
def VanEmdeBoasTree.erase (s : VanEmdeBoasTree) (x : Nat) : Bool × VanEmdeBoasTree :=
  let r := recEraseElement x s.mRoot 16
  (r.1, ⟨r.2, if r.1 then s.mSize - 1 else s.mSize⟩)

/-- Modelled from the spec: `swap` exchanges root pointers and size counters
(header lines 149–156, spec §4.5). -/
def VanEmdeBoasTree.swap (a b : VanEmdeBoasTree) : VanEmdeBoasTree × VanEmdeBoasTree :=
  (⟨b.mRoot, b.mSize⟩, ⟨a.mRoot, a.mSize⟩)

/-- Modelled from the spec: copy construction and copy assignment deep-copy
the other tree via `recCloneTree` and copy the size (header lines 35–44,
235–238). -/
def VanEmdeBoasTree.assign (_ src : VanEmdeBoasTree) : VanEmdeBoasTree :=
  ⟨recCloneTree src.mRoot 16, src.mSize⟩

/-- Modelled from the spec: cursor increment — `mCurr` moves to the owner's
successor of the current value; the end cursor stays put (header lines
283–315, spec §4.6). -/
def VanEmdeBoasTree.iterNext (s : VanEmdeBoasTree) : Option Nat → Option Nat
  | none => none
  | some v => recSuccessor v s.mRoot 16

/-- Modelled from the spec: cursor decrement — from the end cursor to the
maximum, otherwise to the owner's predecessor (spec §4.6). -/
def VanEmdeBoasTree.iterPrev (s : VanEmdeBoasTree) : Option Nat → Option Nat
  | none => treeMax s.mRoot 16
  | some v => recPredecessor v s.mRoot 16

/-- Cursor dereference: the current value (header lines 289–293). -/
def VanEmdeBoasTree.deref (it : Option Nat) : Nat := it.getD 0

/-- States reachable from the default constructor by the mutating public
operations on 16-bit values. -/
inductive Reachable : VanEmdeBoasTree → Prop where
  | init : Reachable VanEmdeBoasTree.mkEmpty
  | ins (s : VanEmdeBoasTree) (x : Nat) (hx : x < 2 ^ 16) (hs : Reachable s) :
      Reachable (s.insert x).2
  | ers (s : VanEmdeBoasTree) (x : Nat) (hx : x < 2 ^ 16) (hs : Reachable s) :
      Reachable (s.erase x).2

/-- The whole-set invariant: the root satisfies the structural invariant and
the cached size counts the stored values. -/
def Good (s : VanEmdeBoasTree) : Prop :=
  Inv s.mRoot 16 ∧ s.mSize = (treeElems s.mRoot 16).card

theorem reachable_good {s : VanEmdeBoasTree} (h : Reachable s) : Good s := by
  induction h with
  | init =>
    refine ⟨(recCreateTree_spec 16).1, ?_⟩
    rw [show VanEmdeBoasTree.mkEmpty.mRoot = recCreateTree 16 from rfl,
      (recCreateTree_spec 16).2]
    rfl
  | ins s x hx hs ihg =>
    obtain ⟨hInv, hSize⟩ := ihg
    obtain ⟨hI2, hE2, hF2⟩ := recInsertElement_spec hInv x hx
      (recInsertElement x s.mRoot 16).1 (recInsertElement x s.mRoot 16).2 rfl
    refine ⟨hI2, ?_⟩
    show (if (recInsertElement x s.mRoot 16).1 then s.mSize + 1 else s.mSize) =
      (treeElems (recInsertElement x s.mRoot 16).2 16).card
    rw [hE2]
    by_cases hb : (recInsertElement x s.mRoot 16).1 = true
    · rw [if_pos hb, hSize, Finset.card_insert_of_not_mem (hF2.mp hb)]
    · have hxmem : x ∈ treeElems s.mRoot 16 := by
        by_contra hcon
        exact hb (hF2.mpr hcon)
      rw [if_neg hb, hSize, Finset.insert_eq_self.mpr hxmem]
  | ers s x hx hs ihg =>
    obtain ⟨hInv, hSize⟩ := ihg
    obtain ⟨hI2, hE2, hF2⟩ := recEraseElement_spec hInv x hx
      (recEraseElement x s.mRoot 16).1 (recEraseElement x s.mRoot 16).2 rfl
    refine ⟨hI2, ?_⟩
    show (if (recEraseElement x s.mRoot 16).1 then s.mSize - 1 else s.mSize) =
      (treeElems (recEraseElement x s.mRoot 16).2 16).card
    rw [hE2]
    by_cases hb : (recEraseElement x s.mRoot 16).1 = true
    · rw [if_pos hb, hSize, Finset.card_erase_of_mem (hF2.mp hb)]
    · have hxmem : x ∉ treeElems s.mRoot 16 := by
        intro hcon
        exact hb (hF2.mpr hcon)
      rw [if_neg hb, hSize, Finset.erase_eq_self.mpr hxmem]

theorem elems_eq_filter_contains {root : VTree} (hInv : Inv root 16) :
    treeElems root 16 =
      (Finset.range (2 ^ 16)).filter (fun y => recFindElement y root 16 = true) := by
  ext y
  simp only [Finset.mem_filter, Finset.mem_range]
  constructor
  · intro hy
    have hylt := Finset.mem_range.mp (elems_subset_range hInv hy)
    exact ⟨hylt, (recFindElement_spec hInv y hylt).mpr hy⟩
  · rintro ⟨hylt, hfind⟩
    exact (recFindElement_spec hInv y hylt).mp hfind

/-- The values visited by repeatedly incrementing a cursor, starting at the
given cursor position, with enough fuel to exhaust the set. -/
def traverseFrom (s : VanEmdeBoasTree) : Option Nat → Nat → List Nat
  | _, 0 => []
  | none, _ => []
  | some v, fuel + 1 => v :: traverseFrom s (s.iterNext (some v)) fuel

/-- The full in-order walk from `begin()` to `end()`. -/
def iterList (s : VanEmdeBoasTree) : List Nat := traverseFrom s s.beginIter (2 ^ 16)

theorem traverseFrom_good {s : VanEmdeBoasTree} (hInv : Inv s.mRoot 16) :
    ∀ (fuel : Nat) (v : Nat), v ∈ treeElems s.mRoot 16 →
      ((treeElems s.mRoot 16).filter (fun y => v ≤ y)).card ≤ fuel →
      List.Sorted (· < ·) (traverseFrom s (some v) fuel) ∧
      ∀ y, y ∈ traverseFrom s (some v) fuel ↔ (y ∈ treeElems s.mRoot 16 ∧ v ≤ y) := by
  intro fuel
  induction fuel with
  | zero =>
    intro v hv hcard
    have : v ∈ (treeElems s.mRoot 16).filter (fun y => v ≤ y) :=
      Finset.mem_filter.mpr ⟨hv, Nat.le_refl _⟩
    have := Finset.card_pos.mpr ⟨v, this⟩
    omega
  | succ fuel ih =>
    intro v hv hcard
    have hvlt := Finset.mem_range.mp (elems_subset_range hInv hv)
    have hsucc := recSuccessor_spec hInv v hvlt
    have hunfold0 : traverseFrom s (some v) (fuel + 1) =
        v :: traverseFrom s (recSuccessor v s.mRoot 16) fuel := rfl
    cases hs : recSuccessor v s.mRoot 16 with
    | none =>
      rw [hs] at hsucc
      have hunfold : traverseFrom s (some v) (fuel + 1) = [v] := by
        rw [hunfold0, hs]
        cases fuel <;> rfl
      rw [hunfold]
      refine ⟨List.sorted_singleton v, fun y => ?_⟩
      constructor
      · intro hy
        rw [List.mem_singleton] at hy
        subst hy
        exact ⟨hv, Nat.le_refl _⟩
      · rintro ⟨hyel, hvy⟩
        have := hsucc y hyel
        rw [List.mem_singleton]
        omega
    | some w =>
      rw [hs] at hsucc
      obtain ⟨hwmem, hvw, hwleast⟩ := hsucc
      have hunfold : traverseFrom s (some v) (fuel + 1) =
          v :: traverseFrom s (some w) fuel := by rw [hunfold0, hs]
      have hcard' : ((treeElems s.mRoot 16).filter (fun y => w ≤ y)).card ≤ fuel := by
        have hsub : (treeElems s.mRoot 16).filter (fun y => w ≤ y) ⊆
            ((treeElems s.mRoot 16).filter (fun y => v ≤ y)).erase v := by
          intro y hy
          obtain ⟨hyel, hwy⟩ := Finset.mem_filter.mp hy
          exact Finset.mem_erase.mpr ⟨by omega, Finset.mem_filter.mpr ⟨hyel, by omega⟩⟩
        have h1 := Finset.card_le_card hsub
        have h2 := Finset.card_erase_of_mem
          (Finset.mem_filter.mpr ⟨hv, Nat.le_refl v⟩ :
            v ∈ (treeElems s.mRoot 16).filter (fun y => v ≤ y))
        omega
      obtain ⟨ihSorted, ihMem⟩ := ih w hwmem hcard'
      rw [hunfold]
      constructor
      · rw [List.sorted_cons]
        refine ⟨fun y hy => ?_, ihSorted⟩
        have := (ihMem y).mp hy
        omega
      · intro y
        rw [List.mem_cons, ihMem y]
        constructor
        · rintro (rfl | ⟨hyel, hwy⟩)
          · exact ⟨hv, Nat.le_refl _⟩
          · exact ⟨hyel, by omega⟩
        · rintro ⟨hyel, hvy⟩
          by_cases hyv : y = v
          · exact Or.inl hyv
          · refine Or.inr ⟨hyel, hwleast y hyel (by omega)⟩

theorem iterList_spec {s : VanEmdeBoasTree} (hInv : Inv s.mRoot 16) :
    List.Sorted (· < ·) (iterList s) ∧
    ∀ y, y ∈ iterList s ↔ y ∈ treeElems s.mRoot 16 := by
  rw [iterList]
  have hmin := treeMin_spec hInv
  cases hm : treeMin s.mRoot 16 with
  | none =>
    rw [hm] at hmin
    simp only [isMinOf] at hmin
    have hbeg : s.beginIter = none := hm
    rw [hbeg]
    have hnil : traverseFrom s none (2 ^ 16) = [] := by
      rw [show (2 : Nat) ^ 16 = 65535 + 1 from rfl]
      rfl
    rw [hnil, hmin]
    simp
  | some m =>
    rw [hm] at hmin
    obtain ⟨hmmem, hmleast⟩ := hmin
    have hbeg : s.beginIter = some m := hm
    rw [hbeg]
    have hcard : ((treeElems s.mRoot 16).filter (fun y => m ≤ y)).card ≤ 2 ^ 16 := by
      calc ((treeElems s.mRoot 16).filter (fun y => m ≤ y)).card
          ≤ (treeElems s.mRoot 16).card := Finset.card_le_card (Finset.filter_subset _ _)
        _ ≤ (Finset.range (2 ^ 16)).card := Finset.card_le_card (elems_subset_range hInv)
        _ = 2 ^ 16 := Finset.card_range _
    obtain ⟨hSorted, hMem⟩ := traverseFrom_good hInv (2 ^ 16) m hmmem hcard
    refine ⟨hSorted, fun y => ?_⟩
    rw [hMem y]
    exact ⟨fun h => h.1, fun h => ⟨h, hmleast y h⟩⟩

/-- The structural property claimed of every internal node (spec §3,
invariants 2 and 3): below the base case, a non-empty node's cached min is
stored in no child, and a node holding exactly one value has `min = max` with
all children and the summary empty. -/
def goodNode (t : VTree) (k : Nat) : Prop :=
  if k ≤ 4 then True
  else
    match t with
    | .leaf _ => True
    | .node e mn mx summ cs =>
        goodNode summ ((k + 1) / 2) ∧ (∀ c ∈ cs, goodNode c (k / 2)) ∧
        (e = false → mn ∉ childElems cs k) ∧
        (e = false → (treeElems (.node e mn mx summ cs) k).card = 1 →
          mn = mx ∧
          (∀ h, h < 2 ^ ((k + 1) / 2) → treeElems (cs.getD h (.leaf 0)) (k / 2) = ∅) ∧
          treeElems summ ((k + 1) / 2) = ∅)
termination_by k
decreasing_by all_goals omega

theorem goodNode_base {t : VTree} {k : Nat} (hk : k ≤ 4) : goodNode t k := by
  unfold goodNode
  rw [if_pos hk]
  trivial

theorem goodNode_node {k : Nat} (hk : ¬ k ≤ 4) (e : Bool) (mn mx : Nat) (summ : VTree)
    (cs : List VTree) :
    goodNode (.node e mn mx summ cs) k =
      (goodNode summ ((k + 1) / 2) ∧ (∀ c ∈ cs, goodNode c (k / 2)) ∧
        (e = false → mn ∉ childElems cs k) ∧
        (e = false → (treeElems (.node e mn mx summ cs) k).card = 1 →
          mn = mx ∧
          (∀ h, h < 2 ^ ((k + 1) / 2) → treeElems (cs.getD h (.leaf 0)) (k / 2) = ∅) ∧
          treeElems summ ((k + 1) / 2) = ∅)) := by
  conv_lhs => unfold goodNode
  rw [if_neg hk]

theorem inv_goodNode {t : VTree} {k : Nat} (hinv : Inv t k) : goodNode t k := by
  induction hinv with
  | leaf hk hb => exact goodNode_base hk
  | @emptyNode kk mn mx summ cs hk hlen hsumm hch hse hce ihsumm ihch =>
    rw [goodNode_node (by omega)]
    refine ⟨ihsumm, ihch, ?_, ?_⟩
    · intro hcon
      cases hcon
    · intro hcon
      cases hcon
  | @fullNode kk mn mx summ cs hk hlen hsumm hch hsummEq hmn hmx hminlt hmaxE hmaxNE ihsumm ihch =>
    rw [goodNode_node (by omega)]
    refine ⟨ihsumm, ihch, ?_, ?_⟩
    · intro _ hmem
      exact absurd (hminlt mn hmem) (by omega)
    · intro _ hcard
      rw [treeElems_node (show ¬ kk ≤ 4 by omega), if_neg Bool.false_ne_true] at hcard
      have hmnnot : mn ∉ childElems cs kk := fun hmem => absurd (hminlt mn hmem) (by omega)
      rw [Finset.card_insert_of_not_mem hmnnot] at hcard
      have hCEemp : childElems cs kk = ∅ := Finset.card_eq_zero.mp (by omega)
      refine ⟨(hmaxE hCEemp).symm, fun h hh => child_empty_of_childElems_empty hCEemp hh, ?_⟩
      rw [hsummEq, Finset.filter_eq_empty_iff]
      intro h hh
      rw [child_empty_of_childElems_empty hCEemp (Finset.mem_range.mp hh)]
      simp

theorem bool_eq_of_iff {a b : Bool} (h : (a = true) ↔ (b = true)) : a = b := by
  cases a <;> cases b <;> simp_all

/-! Const member functions: the header declares `empty`, `size`, `find`,
`predecessor`, `successor`, `begin`, `end` and cursor dereference as `const`
member functions (`VanEmdeBoasTree.h` lines 46–124, 289–293), so a call
returns its result and leaves the receiver untouched; each wrapper below
models one such call as result paired with the receiver after the call. -/

def VanEmdeBoasTree.emptyOp (s : VanEmdeBoasTree) : Bool × VanEmdeBoasTree := (s.empty, s)

def VanEmdeBoasTree.sizeOp (s : VanEmdeBoasTree) : Nat × VanEmdeBoasTree := (s.size, s)

def VanEmdeBoasTree.findOp (s : VanEmdeBoasTree) (x : Nat) : Option Nat × VanEmdeBoasTree :=
  (s.find x, s)

def VanEmdeBoasTree.successorOp (s : VanEmdeBoasTree) (x : Nat) :
    Option Nat × VanEmdeBoasTree := (s.successor x, s)

def VanEmdeBoasTree.predecessorOp (s : VanEmdeBoasTree) (x : Nat) :
    Option Nat × VanEmdeBoasTree := (s.predecessor x, s)

def VanEmdeBoasTree.beginOp (s : VanEmdeBoasTree) : Option Nat × VanEmdeBoasTree :=
  (s.beginIter, s)

def VanEmdeBoasTree.endOp (s : VanEmdeBoasTree) : Option Nat × VanEmdeBoasTree :=
  (s.endIter, s)

def VanEmdeBoasTree.derefOp (s : VanEmdeBoasTree) (it : Option Nat) :
    Nat × VanEmdeBoasTree := (VanEmdeBoasTree.deref it, s)

/-- C1: for every reachable set state and every value `x` in `[0, 2^16)`,
`successor(x)` returns an iterator to the unique element `y` of the set with
`y > x` such that no element `z` of the set satisfies `x < z < y` (that is,
the smallest element above `x`), and returns the end iterator (`none`) when no
element greater than `x` exists. -/
theorem claim_successor_correct (s : VanEmdeBoasTree) (hs : Reachable s) (x : Nat)
    (hx : x < 2 ^ 16) :
    (∀ m, s.successor x = some m →
      s.contains m = true ∧ x < m ∧
        ∀ z, z < 2 ^ 16 → s.contains z = true → x < z → m ≤ z) ∧
    (s.successor x = none → ∀ y, y < 2 ^ 16 → s.contains y = true → y ≤ x) := by
  obtain ⟨hInv, _⟩ := reachable_good hs
  have hspec := recSuccessor_spec hInv x hx
  constructor
  · intro m hm
    rw [VanEmdeBoasTree.successor] at hm
    rw [hm] at hspec
    obtain ⟨hmem, hlt, hleast⟩ := hspec
    have hmlt := Finset.mem_range.mp (elems_subset_range hInv hmem)
    refine ⟨(recFindElement_spec hInv m hmlt).mpr hmem, hlt, ?_⟩
    intro z hz hcz hxz
    exact hleast z ((recFindElement_spec hInv z hz).mp hcz) hxz
  · intro hm y hy hcy
    rw [VanEmdeBoasTree.successor] at hm
    rw [hm] at hspec
    exact hspec y ((recFindElement_spec hInv y hy).mp hcy)

/-- C2: for every reachable set state and every value `x` in `[0, 2^16)`,
`predecessor(x)` returns an iterator to the largest element `y` of the set
with `y < x`, and returns the end iterator (`none`) when no element smaller
than `x` exists. -/
theorem claim_predecessor_correct (s : VanEmdeBoasTree) (hs : Reachable s) (x : Nat)
    (hx : x < 2 ^ 16) :
    (∀ m, s.predecessor x = some m →
      s.contains m = true ∧ m < x ∧
        ∀ z, z < 2 ^ 16 → s.contains z = true → z < x → z ≤ m) ∧
    (s.predecessor x = none → ∀ y, y < 2 ^ 16 → s.contains y = true → x ≤ y) := by
  obtain ⟨hInv, _⟩ := reachable_good hs
  have hspec := recPredecessor_spec hInv x hx
  constructor
  · intro m hm
    rw [VanEmdeBoasTree.predecessor] at hm
    rw [hm] at hspec
    obtain ⟨hmem, hlt, hgreat⟩ := hspec
    have hmlt := Finset.mem_range.mp (elems_subset_range hInv hmem)
    refine ⟨(recFindElement_spec hInv m hmlt).mpr hmem, hlt, ?_⟩
    intro z hz hcz hzx
    exact hgreat z ((recFindElement_spec hInv z hz).mp hcz) hzx
  · intro hm y hy hcy
    rw [VanEmdeBoasTree.predecessor] at hm
    rw [hm] at hspec
    exact hspec y ((recFindElement_spec hInv y hy).mp hcy)

/-- C3: for every reachable set state and every value `x` in `[0, 2^16)`:
`insert(x)` returns an iterator to `x`; the flag is true exactly when `x` was
absent; afterwards `x` is contained; a successful insert grows the size by
one; a failed insert leaves size and membership unchanged; and the second of
two consecutive `insert(x)` calls reports not-inserted with the size
unchanged. -/
theorem claim_insert_correct (s : VanEmdeBoasTree) (hs : Reachable s) (x : Nat)
    (hx : x < 2 ^ 16) :
    (s.insert x).1.1 = some x ∧
    ((s.insert x).1.2 = true ↔ s.contains x = false) ∧
    (s.insert x).2.contains x = true ∧
    ((s.insert x).1.2 = true → (s.insert x).2.size = s.size + 1) ∧
    ((s.insert x).1.2 = false → (s.insert x).2.size = s.size ∧
      ∀ y, y < 2 ^ 16 → (s.insert x).2.contains y = s.contains y) ∧
    ((s.insert x).2.insert x).1.2 = false ∧
    (((s.insert x).2.insert x).2).size = (s.insert x).2.size := by
  obtain ⟨hInv, _⟩ := reachable_good hs
  obtain ⟨hI2, hE2, hF2⟩ := recInsertElement_spec hInv x hx
    (recInsertElement x s.mRoot 16).1 (recInsertElement x s.mRoot 16).2 rfl
  have hxmem2 : x ∈ treeElems (recInsertElement x s.mRoot 16).2 16 := by
    rw [hE2]
    exact Finset.mem_insert_self _ _
  have hcont2 : (s.insert x).2.contains x = true :=
    (recFindElement_spec hI2 x hx).mpr hxmem2
  obtain ⟨hI3, hE3, hF3⟩ := recInsertElement_spec hI2 x hx
    (recInsertElement x (recInsertElement x s.mRoot 16).2 16).1
    (recInsertElement x (recInsertElement x s.mRoot 16).2 16).2 rfl
  have hflag2 : (recInsertElement x (recInsertElement x s.mRoot 16).2 16).1 = false := by
    rw [Bool.eq_false_iff]
    intro hcon
    exact (hF3.mp hcon) hxmem2
  simp only [VanEmdeBoasTree.insert, VanEmdeBoasTree.contains, VanEmdeBoasTree.size]
  refine ⟨trivial, ?_, hcont2, ?_, ?_, hflag2, ?_⟩
  · rw [hF2]
    constructor
    · intro hnot
      rw [Bool.eq_false_iff]
      intro hcon
      exact hnot ((recFindElement_spec hInv x hx).mp hcon)
    · intro hfalse hmem
      have := (recFindElement_spec hInv x hx).mpr hmem
      rw [hfalse] at this
      cases this
  · intro hb
    show (if (recInsertElement x s.mRoot 16).1 then s.mSize + 1 else s.mSize) = s.mSize + 1
    rw [if_pos hb]
  · intro hb
    have hxmem : x ∈ treeElems s.mRoot 16 := by
      by_contra hcon
      rw [hF2.mpr hcon] at hb
      cases hb
    constructor
    · show (if (recInsertElement x s.mRoot 16).1 then s.mSize + 1 else s.mSize) = s.mSize
      rw [if_neg (by rw [hb]; exact Bool.false_ne_true)]
    · intro y hy
      apply bool_eq_of_iff
      rw [recFindElement_spec hI2 y hy, recFindElement_spec hInv y hy, hE2,
        Finset.insert_eq_self.mpr hxmem]
  · show (if (recInsertElement x (recInsertElement x s.mRoot 16).2 16).1
        then (s.insert x).2.mSize + 1 else (s.insert x).2.mSize) = (s.insert x).2.mSize
    rw [if_neg (by rw [hflag2]; exact Bool.false_ne_true)]

/-- C4: for every reachable set state and every value `x` in `[0, 2^16)`,
`erase(x)` returns true exactly when `x` was an element immediately before the
call; afterwards `x` is not an element; and when it returns false the set's
size and membership are unchanged. -/
theorem claim_erase_correct (s : VanEmdeBoasTree) (hs : Reachable s) (x : Nat)
    (hx : x < 2 ^ 16) :
    ((s.erase x).1 = true ↔ s.contains x = true) ∧
    (s.erase x).2.contains x = false ∧
    ((s.erase x).1 = false → (s.erase x).2.size = s.size ∧
      ∀ y, y < 2 ^ 16 → (s.erase x).2.contains y = s.contains y) := by
  obtain ⟨hInv, _⟩ := reachable_good hs
  obtain ⟨hI2, hE2, hF2⟩ := recEraseElement_spec hInv x hx
    (recEraseElement x s.mRoot 16).1 (recEraseElement x s.mRoot 16).2 rfl
  simp only [VanEmdeBoasTree.erase, VanEmdeBoasTree.contains, VanEmdeBoasTree.size]
  refine ⟨?_, ?_, ?_⟩
  · rw [hF2, recFindElement_spec hInv x hx]
  · rw [Bool.eq_false_iff]
    intro hcon
    have := (recFindElement_spec hI2 x hx).mp hcon
    rw [hE2] at this
    exact (Finset.mem_erase.mp this).1 rfl
  · intro hb
    have hxnot : x ∉ treeElems s.mRoot 16 := by
      intro hcon
      rw [hF2.mpr hcon] at hb
      cases hb
    constructor
    · show (if (recEraseElement x s.mRoot 16).1 then s.mSize - 1 else s.mSize) = s.mSize
      rw [if_neg (by rw [hb]; exact Bool.false_ne_true)]
    · intro y hy
      apply bool_eq_of_iff
      rw [recFindElement_spec hI2 y hy, recFindElement_spec hInv y hy, hE2,
        Finset.erase_eq_self.mpr hxnot]

/-- C5: after every sequence of inserts and erases from the empty set, the
cached `size()` equals the number of distinct values in `[0, 2^16)` the set
contains (the counter moves exactly with successful inserts and erases, which
is the content of `reachable_good`). -/
theorem claim_size_correct (s : VanEmdeBoasTree) (hs : Reachable s) :
    s.size = ((Finset.range (2 ^ 16)).filter (fun x => s.contains x = true)).card := by
  obtain ⟨hInv, hSize⟩ := reachable_good hs
  rw [VanEmdeBoasTree.size, hSize, elems_eq_filter_contains hInv]
  rfl

/-- C6: for every reachable set state, iterating from `begin()` to `end()` by
repeated increment visits exactly the stored elements, each once, in strictly
ascending order; each increment moves the cursor to the successor of its
current value by definition of the cursor. -/
theorem claim_iteration_correct (s : VanEmdeBoasTree) (hs : Reachable s) :
    List.Sorted (· < ·) (iterList s) ∧
    (∀ y, y ∈ iterList s ↔ (y < 2 ^ 16 ∧ s.contains y = true)) ∧
    (∀ v, s.iterNext (some v) = s.successor v) := by
  obtain ⟨hInv, _⟩ := reachable_good hs
  obtain ⟨hSorted, hMem⟩ := iterList_spec hInv
  refine ⟨hSorted, fun y => ?_, fun v => rfl⟩
  rw [hMem y]
  constructor
  · intro hy
    have hylt := Finset.mem_range.mp (elems_subset_range hInv hy)
    exact ⟨hylt, (recFindElement_spec hInv y hylt).mpr hy⟩
  · rintro ⟨hylt, hcy⟩
    exact (recFindElement_spec hInv y hylt).mp hcy

/-- C7: copy construction and copy assignment produce a deep copy: the model's
clone rebuilds the entire tree (`recCloneTree`), so the copy has the same
membership as the source for every value, and, holding the complete state, it
behaves exactly like the source under any subsequent mutation; in this pure
model the two values share no mutable state, so mutating one cannot affect
the other. -/
theorem claim_deep_copy (d s : VanEmdeBoasTree) (x y : Nat) :
    (d.assign s).contains x = s.contains x ∧
    (d.assign s).size = s.size ∧
    ((d.assign s).insert y).2.contains x = ((s.insert y).2).contains x ∧
    ((d.assign s).insert y).2.size = ((s.insert y).2).size ∧
    ((d.assign s).erase y).2.contains x = ((s.erase y).2).contains x ∧
    ((d.assign s).erase y).2.size = ((s.erase y).2).size := by
  have hassign : d.assign s = ⟨s.mRoot, s.mSize⟩ := by
    rw [VanEmdeBoasTree.assign, recCloneTree_eq]
  rw [hassign]
  exact ⟨rfl, rfl, rfl, rfl, rfl, rfl⟩

/-- C8: after `a.swap(b)` the entire observable state of the two sets is
exchanged — the sizes and the membership of every value. -/
theorem claim_swap_correct (a b : VanEmdeBoasTree) (x : Nat) :
    (a.swap b).1.size = b.size ∧ (a.swap b).2.size = a.size ∧
    (a.swap b).1.contains x = b.contains x ∧
    (a.swap b).2.contains x = a.contains x :=
  ⟨rfl, rfl, rfl, rfl⟩

/-- C9: in every reachable tree state, every internal node satisfies the spec
invariants: a non-empty node's cached min is stored in no child, and a node
whose subtree holds exactly one element has that element as both min and max,
stored in neither a child nor the summary. -/
theorem claim_node_invariants (s : VanEmdeBoasTree) (hs : Reachable s) :
    goodNode s.mRoot 16 :=
  inv_goodNode (reachable_good hs).1

/-- C10: the query operations `empty()`, `size()`, `find(x)`,
`successor(x)`, `predecessor(x)`, `begin()`, `end()` and iterator dereference
are const member calls: each returns its result and leaves the receiver — in
particular its size and the membership of every value — unchanged. -/
theorem claim_queries_pure (s : VanEmdeBoasTree) (x : Nat) (it : Option Nat) :
    s.emptyOp.2 = s ∧ s.sizeOp.2 = s ∧ (s.findOp x).2 = s ∧
    (s.successorOp x).2 = s ∧ (s.predecessorOp x).2 = s ∧
    s.beginOp.2 = s ∧ s.endOp.2 = s ∧ (s.derefOp it).2 = s :=
  ⟨rfl, rfl, rfl, rfl, rfl, rfl, rfl, rfl⟩

/-- A small concrete state for exercising the claims: insert 5, 300, 20 into
the empty set (300 and 20 live under different high bytes). -/
def sampleSet : VanEmdeBoasTree :=
  (((VanEmdeBoasTree.mkEmpty.insert 5).2.insert 300).2.insert 20).2

theorem sampleSet_reachable : Reachable sampleSet :=
  Reachable.ins _ 20 (by decide)
    (Reachable.ins _ 300 (by decide)
      (Reachable.ins _ 5 (by decide) Reachable.init))

theorem claim_successor_correct_witness :
    Reachable sampleSet ∧ (7 : Nat) < 2 ^ 16 ∧
    ((∀ m, sampleSet.successor 7 = some m →
      sampleSet.contains m = true ∧ 7 < m ∧
        ∀ z, z < 2 ^ 16 → sampleSet.contains z = true → 7 < z → m ≤ z) ∧
    (sampleSet.successor 7 = none →
      ∀ y, y < 2 ^ 16 → sampleSet.contains y = true → y ≤ 7)) :=
  ⟨sampleSet_reachable, by decide,
    claim_successor_correct sampleSet sampleSet_reachable 7 (by decide)⟩

theorem claim_predecessor_correct_witness :
    Reachable sampleSet ∧ (21 : Nat) < 2 ^ 16 ∧
    ((∀ m, sampleSet.predecessor 21 = some m →
      sampleSet.contains m = true ∧ m < 21 ∧
        ∀ z, z < 2 ^ 16 → sampleSet.contains z = true → z < 21 → z ≤ m) ∧
    (sampleSet.predecessor 21 = none →
      ∀ y, y < 2 ^ 16 → sampleSet.contains y = true → 21 ≤ y)) :=
  ⟨sampleSet_reachable, by decide,
    claim_predecessor_correct sampleSet sampleSet_reachable 21 (by decide)⟩

theorem claim_insert_correct_witness :
    Reachable sampleSet ∧ (9 : Nat) < 2 ^ 16 ∧
    ((sampleSet.insert 9).1.1 = some 9 ∧
    ((sampleSet.insert 9).1.2 = true ↔ sampleSet.contains 9 = false) ∧
    (sampleSet.insert 9).2.contains 9 = true ∧
    ((sampleSet.insert 9).1.2 = true → (sampleSet.insert 9).2.size = sampleSet.size + 1) ∧
    ((sampleSet.insert 9).1.2 = false → (sampleSet.insert 9).2.size = sampleSet.size ∧
      ∀ y, y < 2 ^ 16 → (sampleSet.insert 9).2.contains y = sampleSet.contains y) ∧
    ((sampleSet.insert 9).2.insert 9).1.2 = false ∧
    (((sampleSet.insert 9).2.insert 9).2).size = (sampleSet.insert 9).2.size) :=
  ⟨sampleSet_reachable, by decide,
    claim_insert_correct sampleSet sampleSet_reachable 9 (by decide)⟩

theorem claim_erase_correct_witness :
    Reachable sampleSet ∧ (5 : Nat) < 2 ^ 16 ∧
    (((sampleSet.erase 5).1 = true ↔ sampleSet.contains 5 = true) ∧
    (sampleSet.erase 5).2.contains 5 = false ∧
    ((sampleSet.erase 5).1 = false → (sampleSet.erase 5).2.size = sampleSet.size ∧
      ∀ y, y < 2 ^ 16 → (sampleSet.erase 5).2.contains y = sampleSet.contains y)) :=
  ⟨sampleSet_reachable, by decide,
    claim_erase_correct sampleSet sampleSet_reachable 5 (by decide)⟩

theorem claim_size_correct_witness :
    Reachable sampleSet ∧
    sampleSet.size =
      ((Finset.range (2 ^ 16)).filter (fun x => sampleSet.contains x = true)).card :=
  ⟨sampleSet_reachable, claim_size_correct sampleSet sampleSet_reachable⟩

theorem claim_iteration_correct_witness :
    Reachable sampleSet ∧
    (List.Sorted (· < ·) (iterList sampleSet) ∧
    (∀ y, y ∈ iterList sampleSet ↔ (y < 2 ^ 16 ∧ sampleSet.contains y = true)) ∧
    (∀ v, sampleSet.iterNext (some v) = sampleSet.successor v)) :=
  ⟨sampleSet_reachable, claim_iteration_correct sampleSet sampleSet_reachable⟩

theorem claim_node_invariants_witness :
    Reachable sampleSet ∧ goodNode sampleSet.mRoot 16 :=
  ⟨sampleSet_reachable, claim_node_invariants sampleSet sampleSet_reachable⟩

end VEB
